import Mathlib

set_option maxRecDepth 100000
set_option maxHeartbeats 1000000

/-!
Verification development for the `colmap-reader` crate
(`src/crates/colmap-reader/src/lib.rs`): a shallow embedding, in Lean 4, of
the COLMAP reconstruction readers (`read_cameras`, `read_images`,
`read_points3d`, in both their text and binary modes), together with
theorems settling the specification claims about them.

Modelling conventions:
* Machine floating-point values are modelled exactly: every finite IEEE
  value is a decimal fraction, represented canonically by the type `Dec`
  below (`FVal.finite d`), with the special values `inf`, `-inf`, `nan` as
  explicit constructors.  A binary 64-bit pattern is decoded to its exact
  value (`f64ValOfBits`); the Rust `as f32` narrowing cast is modelled by
  `narrow`, an exact implementation of IEEE round-to-nearest-even into
  single precision (with gradual underflow and overflow to infinity).
  Decimal-literal parsing (`str::parse::<f64>`) is modelled by the exact
  value of the literal, which coincides with Rust's correctly-rounded
  parsing on every literal that is exactly representable in binary64 (in
  particular on every literal the encoders below print); `str::parse::<f32>`
  additionally applies the single-precision rounding, as Rust does.
* Byte streams are `List Nat` (each element < 256); text input is
  `List Char`.  `io::Result` is `Except RErr`; Rust panics (out-of-bounds
  indexing, `usize` underflow) are modelled by the distinguished outcome
  `RErr.panicked`, which is distinct from every `io::Error` the readers
  return.
* `HashMap` is modelled by an association list with an `upsert` operation
  that replaces any existing binding of the key, matching
  `HashMap::insert`'s overwrite semantics; the specification declares entry
  order irrelevant.
-/

/-- Outcomes of a reader call.  The first six constructors are the error
kinds named by the specification (section 7), mapped from the `io::Error`
values the Rust code constructs; `panicked` models a Rust panic
(out-of-bounds indexing or arithmetic underflow), which is not an
`io::Result` value at all. -/
inductive RErr where
  | parseError
  | malformedRecord
  | unknownCameraModel
  | paramCountMismatch
  | unexpectedEof
  | invalidEncoding
  | panicked
deriving DecidableEq, Repr

abbrev RRes (α : Type) := Except RErr α

instance {ε α : Type} [DecidableEq ε] [DecidableEq α] :
    DecidableEq (Except ε α) := fun x y =>
  match x, y with
  | .ok a, .ok b =>
    if h : a = b then isTrue (by rw [h]) else isFalse (by simp [h])
  | .error e, .error f =>
    if h : e = f then isTrue (by rw [h]) else isFalse (by simp [h])
  | .ok _, .error _ => isFalse (by simp)
  | .error _, .ok _ => isFalse (by simp)

/-!
### Exact decimal-fraction arithmetic

Every finite IEEE floating-point value is a decimal fraction
`num / 10 ^ exp` (dyadic rationals are decimal fractions, via
`m·2^(-k) = m·5^k·10^(-k)`), so machine floats are modelled exactly by the
type `Dec` below.  `Dec` values are kept in canonical form (either
`exp = 0`, or `num` not divisible by 10), which makes value equality plain
structural equality; all operations are structurally recursive so that
they reduce inside the kernel (`decide`).
-/

/-- A decimal fraction `num / 10 ^ exp`, canonical when built by
`mkDec`. -/
structure Dec where
  num : ℤ
  exp : ℕ
deriving DecidableEq, Repr

/-- Normalisation worker: strip factors of 10 (the fuel `exp` always
suffices). -/
def mkDecGo : ℕ → ℤ → ℕ → Dec
  | 0, n, e => ⟨n, e⟩
  | f + 1, n, e =>
    if e = 0 then ⟨n, 0⟩
    else if n % 10 = 0 then mkDecGo f (n / 10) (e - 1) else ⟨n, e⟩

/-- The canonical `Dec` of value `n / 10 ^ e`. -/
def mkDec (n : ℤ) (e : ℕ) : Dec := mkDecGo e n e

namespace Dec

def neg (d : Dec) : Dec := ⟨-d.num, d.exp⟩

/-- Value comparison by cross-multiplication. -/
def leB (a b : Dec) : Bool :=
  a.num * ((10 ^ b.exp : ℕ) : ℤ) ≤ b.num * ((10 ^ a.exp : ℕ) : ℤ)

/-- Strict value comparison. -/
def ltB (a b : Dec) : Bool :=
  a.num * ((10 ^ b.exp : ℕ) : ℤ) < b.num * ((10 ^ a.exp : ℕ) : ℤ)

end Dec

/-- The canonical `Dec` of value `m · 2 ^ z`. -/
def dyadic (m : ℤ) (z : ℤ) : Dec :=
  if 0 ≤ z then mkDec (m * ((2 ^ z.toNat : ℕ) : ℤ)) 0
  else mkDec (m * ((5 ^ (-z).toNat : ℕ) : ℤ)) (-z).toNat

/-- Scale a `Dec` by `2 ^ z`. -/
def dmul2z (d : Dec) (z : ℤ) : Dec :=
  if 0 ≤ z then mkDec (d.num * ((2 ^ z.toNat : ℕ) : ℤ)) d.exp
  else mkDec (d.num * ((5 ^ (-z).toNat : ℕ) : ℤ)) (d.exp + (-z).toNat)

/-- Largest `p` with `2 ^ p ≤ n` (0 for `n ≤ 1`); fuel-structural so it
reduces in the kernel. -/
def log2Go : ℕ → ℕ → ℕ
  | 0, _ => 0
  | f + 1, n => if n ≤ 1 then 0 else log2Go f (n / 2) + 1

/-- Base-2 logarithm with constant fuel: exact for every `n < 2 ^ 4096`,
which covers every magnitude a finite binary64 value or its decimal
rendering can produce (the largest is below `10 ^ 1100 < 2 ^ 3700`). -/
def natLog2 (n : ℕ) : ℕ := log2Go 4096 n

/-- Floor of the base-2 logarithm of a positive `Dec`. -/
def dlog2 (a : Dec) : ℤ :=
  let e0 : ℤ := (natLog2 a.num.toNat : ℤ) - (natLog2 (10 ^ a.exp) : ℤ)
  if a.ltB (dyadic 1 e0) then e0 - 1
  else if (dyadic 1 (e0 + 1)).leB a then e0 + 1 else e0

/-- Round a nonnegative `Dec` to the nearest natural number, ties to
even. -/
def rneD (d : Dec) : ℕ :=
  let p : ℤ := ((10 ^ d.exp : ℕ) : ℤ)
  let fl : ℤ := d.num.fdiv p
  let r2 : ℤ := 2 * (d.num - fl * p)
  (if r2 < p then fl else if p < r2 then fl + 1
   else if fl % 2 = 0 then fl else fl + 1).toNat

/-- Exact model of a machine floating-point value. -/
inductive FVal where
  | finite (d : Dec)
  | inf
  | negInf
  | nan
deriving DecidableEq, Repr

namespace FVal

def neg : FVal → FVal
  | finite d => finite d.neg
  | inf => negInf
  | negInf => inf
  | nan => nan

end FVal

/-- IEEE-754 rounding of an exact value into the binary32 format: round
to nearest, ties to even, with gradual underflow and overflow to
infinity.  This models both Rust's `as f32` narrowing of a double and the
final rounding step of `str::parse::<f32>`. -/
def roundF32 (d : Dec) : FVal :=
  if d.num = 0 then .finite ⟨0, 0⟩
  else
    let a : Dec := ⟨(d.num.natAbs : ℤ), d.exp⟩
    let e : ℤ := max (dlog2 a) (-126)
    let m : ℕ := rneD (dmul2z a (23 - e))
    let v : Dec := dyadic (m : ℤ) (e - 23)
    if (dyadic 1 128).leB v then (if d.num < 0 then .negInf else .inf)
    else .finite (if d.num < 0 then v.neg else v)

/-- Rust's `as f32` cast applied to a double value. -/
def narrow : FVal → FVal
  | .finite d => roundF32 d
  | .inf => .inf
  | .negInf => .negInf
  | .nan => .nan

/-- Exact value of an IEEE binary64 bit pattern (little-endian integer
value of the 8 bytes): sign, 11-bit biased exponent, 52-bit mantissa. -/
def f64ValOfBits (b : ℕ) : FVal :=
  let M : ℕ := b % 2 ^ 52
  let E : ℕ := b / 2 ^ 52 % 2 ^ 11
  let s : Bool := b / 2 ^ 63 % 2 = 1
  if E = 2047 then (if M = 0 then (if s then .negInf else .inf) else .nan)
  else
    let mag : Dec :=
      if E = 0 then dyadic (M : ℤ) (-1074)
      else dyadic ((2 ^ 52 + M : ℕ) : ℤ) ((E : ℤ) - 1075)
    .finite (if s then mag.neg else mag)

/-! ### Characters, lines and whitespace tokenisation -/

/-- The ASCII whitespace characters recognised by `split_whitespace`
(we model the ASCII fragment of Rust's `char::is_whitespace`; all inputs
appearing in the claims are ASCII). -/
def isWS (c : Char) : Bool :=
  c = ' ' || c = '\t' || c = '\n' || c = '\r' || c = '\x0b' || c = '\x0c'

/-- One step of `BufRead::read_line` on a character stream: returns the
first line (including its terminating newline when present; the whole
remainder at end of input) together with the rest of the stream. -/
def splitLine : List Char → List Char × List Char
  | [] => ([], [])
  | c :: cs =>
    if c = '\n' then ([c], cs)
    else
      let p := splitLine cs
      (c :: p.1, p.2)

/-- Single pass of `str::split_whitespace`: `cur` is the reversed current
token being accumulated. -/
def splitWSGo (cur : List Char) : List Char → List (List Char)
  | [] => if cur = [] then [] else [cur.reverse]
  | c :: cs =>
    if isWS c then
      if cur = [] then splitWSGo [] cs else cur.reverse :: splitWSGo [] cs
    else splitWSGo (c :: cur) cs

/-- `str::split_whitespace`: the maximal non-whitespace runs, in order. -/
def splitWS (cs : List Char) : List (List Char) :=
  splitWSGo [] cs

/-- Whether a line buffer begins with `'#'` (`str::starts_with('#')`). -/
def startsHash : List Char → Bool
  | '#' :: _ => true
  | _ => false

/-! ### Decimal digits and numeric token parsing -/

def digitVal (c : Char) : ℕ := c.toNat - 48

def digitChar (d : ℕ) : Char := Char.ofNat (48 + d)

/-- Little-endian base-10 digits of `n`, computed with structural fuel so
that it reduces in the kernel; exact whenever `n < 10 ^ fuel`. -/
def digitsAux : ℕ → ℕ → List ℕ
  | 0, _ => []
  | fuel + 1, n => if n = 0 then [] else n % 10 :: digitsAux fuel (n / 10)

/-- The decimal digit characters of `n`, most significant first (exact
for `n < 10 ^ 2000`, far beyond every number the encoders print). -/
def natTok (n : ℕ) : List Char :=
  if n = 0 then ['0'] else ((digitsAux 2000 n).reverse).map digitChar

/-- A signed decimal token. -/
def intTok (i : ℤ) : List Char :=
  if i < 0 then '-' :: natTok (-i).toNat else natTok i.toNat

/-- Numeric value of a big-endian digit-character list. -/
def natV (cs : List Char) : ℕ :=
  cs.foldl (fun a c => 10 * a + digitVal c) 0

/-- Parse an unsigned decimal natural: one or more ASCII digits. -/
def parseNat (cs : List Char) : Option ℕ :=
  if cs ≠ [] ∧ cs.all Char.isDigit then some (natV cs) else none

/-- Parse a signed decimal integer (`FromStr` for the signed integer
types: optional sign, then one or more digits). -/
def parseInt (cs : List Char) : Option ℤ :=
  match cs with
  | '-' :: rest => (parseNat rest).map (fun n => -(n : ℤ))
  | '+' :: rest => (parseNat rest).map (fun n => (n : ℤ))
  | _ => (parseNat cs).map (fun n => (n : ℤ))

/-- Parse an unsigned decimal integer (`FromStr` for unsigned types:
optional `'+'`, then one or more digits; a `'-'` is rejected). -/
def parseUns (cs : List Char) : Option ℕ :=
  match cs with
  | '+' :: rest => parseNat rest
  | _ => parseNat cs

def lowerChar (c : Char) : Char :=
  if 'A' ≤ c ∧ c ≤ 'Z' then Char.ofNat (c.toNat + 32) else c

def spanDigits (cs : List Char) : List Char × List Char :=
  (cs.takeWhile Char.isDigit, cs.dropWhile Char.isDigit)

/-- Exponent part of a float literal: optional sign then one or more
digits. -/
def parseExpInt (cs : List Char) : Option ℤ :=
  match cs with
  | '-' :: rest => (parseNat rest).map (fun n => -(n : ℤ))
  | '+' :: rest => (parseNat rest).map (fun n => (n : ℤ))
  | _ => (parseNat cs).map (fun n => (n : ℤ))

/-- Exact value of `ip . fp × 10 ^ ex`. -/
def decV (ip fp : List Char) (ex : ℤ) : Dec :=
  let base : ℤ := ((natV ip * 10 ^ fp.length + natV fp : ℕ) : ℤ)
  let e2 : ℤ := ex - fp.length
  if 0 ≤ e2 then mkDec (base * ((10 ^ e2.toNat : ℕ) : ℤ)) 0
  else mkDec base (-e2).toNat

/-- The unsigned part of Rust's float grammar:
`'inf' | 'infinity' | 'nan' | Digits '.'? Digits? Exp? | '.' Digits Exp?`
(case-insensitive for the named values). -/
def parseFUns (cs : List Char) : Option FVal :=
  let low := cs.map lowerChar
  if low = ['i', 'n', 'f'] ∨ low = ['i', 'n', 'f', 'i', 'n', 'i', 't', 'y'] then
    some .inf
  else if low = ['n', 'a', 'n'] then some .nan
  else
    let p := spanDigits cs
    match p.2 with
    | [] => if p.1 = [] then none else some (.finite (decV p.1 [] 0))
    | '.' :: r2 =>
      let pf := spanDigits r2
      if p.1 = [] ∧ pf.1 = [] then none
      else
        match pf.2 with
        | [] => some (.finite (decV p.1 pf.1 0))
        | e :: r4 =>
          if e = 'e' ∨ e = 'E' then
            (parseExpInt r4).map (fun ex => .finite (decV p.1 pf.1 ex))
          else none
    | e :: r4 =>
      if e = 'e' ∨ e = 'E' then
        if p.1 = [] then none
        else (parseExpInt r4).map (fun ex => .finite (decV p.1 [] ex))
      else none

/-- Rust's `str::parse` float grammar (exact-value model; see the header
comment). -/
def parseF (cs : List Char) : Option FVal :=
  match cs with
  | '-' :: rest => (parseFUns rest).map FVal.neg
  | '+' :: rest => parseFUns rest
  | _ => parseFUns cs

/-! ### Range-checked token parsers (`parse::<T>` at each call site) -/

def pI32 (t : List Char) : RRes ℤ :=
  match parseInt t with
  | some v => if -2 ^ 31 ≤ v ∧ v < 2 ^ 31 then .ok v else .error .parseError
  | none => .error .parseError

def pI64 (t : List Char) : RRes ℤ :=
  match parseInt t with
  | some v => if -2 ^ 63 ≤ v ∧ v < 2 ^ 63 then .ok v else .error .parseError
  | none => .error .parseError

def pU64 (t : List Char) : RRes ℕ :=
  match parseUns t with
  | some v => if v < 2 ^ 64 then .ok v else .error .parseError
  | none => .error .parseError

def pU8 (t : List Char) : RRes ℕ :=
  match parseUns t with
  | some v => if v < 2 ^ 8 then .ok v else .error .parseError
  | none => .error .parseError

/-- `parse::<f64>` at a call site whose target type is `f64`. -/
def pF64 (t : List Char) : RRes FVal :=
  match parseF t with
  | some v => .ok v
  | none => .error .parseError

/-- `parse::<f32>` at a call site whose target type is `f32`: the parsed
value rounded into single precision. -/
def pF32 (t : List Char) : RRes FVal :=
  match parseF t with
  | some v => .ok (narrow v)
  | none => .error .parseError

/-- `Vec` indexing, which panics when out of bounds. -/
def idx {α : Type} (l : List α) (i : ℕ) : RRes α :=
  match l.get? i with
  | some a => .ok a
  | none => .error .panicked

/-- Character list of a string literal. -/
def chars (s : String) : List Char := s.data

/-! ### UTF-8 (for binary image names) -/

/-- UTF-8 encoding of one scalar value (`Char` excludes surrogates by
construction). -/
def utf8Char (c : Char) : List ℕ :=
  let n := c.toNat
  if n < 0x80 then [n]
  else if n < 0x800 then [0xC0 + n / 64, 0x80 + n % 64]
  else if n < 0x10000 then
    [0xE0 + n / 4096, 0x80 + n / 64 % 64, 0x80 + n % 64]
  else
    [0xF0 + n / 262144, 0x80 + n / 4096 % 64, 0x80 + n / 64 % 64,
      0x80 + n % 64]

/-- UTF-8 byte encoding of a character list (`str::as_bytes` /
`to_string`). -/
def utf8Bytes (cs : List Char) : List ℕ :=
  (cs.map utf8Char).flatten

/-- A UTF-8 continuation byte. -/
def contB (b : ℕ) : Bool := 0x80 ≤ b && b ≤ 0xBF

/-- Strict UTF-8 validation, as performed by `std::str::from_utf8`
(Unicode Table 3-7: rejects overlong forms, surrogates and values above
U+10FFFF). -/
def eat1 (p : ℕ → Bool) : List ℕ → Option (List ℕ)
  | b :: r => if p b then some r else none
  | [] => none

/-- One UTF-8 sequence step: given a lead byte and the remaining bytes,
consume the continuation bytes of a well-formed sequence (Unicode
Table 3-7) and return the rest, or `none` on a malformed sequence. -/
def vuStep (b1 : ℕ) (rest : List ℕ) : Option (List ℕ) :=
  if b1 ≤ 0x7F then some rest
  else if 0xC2 ≤ b1 ∧ b1 ≤ 0xDF then eat1 contB rest
  else if b1 = 0xE0 then
    (eat1 (fun b2 => 0xA0 ≤ b2 && b2 ≤ 0xBF) rest).bind (eat1 contB)
  else if (0xE1 ≤ b1 ∧ b1 ≤ 0xEC) ∨ (0xEE ≤ b1 ∧ b1 ≤ 0xEF) then
    (eat1 contB rest).bind (eat1 contB)
  else if b1 = 0xED then
    (eat1 (fun b2 => 0x80 ≤ b2 && b2 ≤ 0x9F) rest).bind (eat1 contB)
  else if b1 = 0xF0 then
    ((eat1 (fun b2 => 0x90 ≤ b2 && b2 ≤ 0xBF) rest).bind
      (eat1 contB)).bind (eat1 contB)
  else if 0xF1 ≤ b1 ∧ b1 ≤ 0xF3 then
    ((eat1 contB rest).bind (eat1 contB)).bind (eat1 contB)
  else if b1 = 0xF4 then
    ((eat1 (fun b2 => 0x80 ≤ b2 && b2 ≤ 0x8F) rest).bind
      (eat1 contB)).bind (eat1 contB)
  else none

def vuGo : ℕ → List ℕ → Bool
  | _, [] => true
  | 0, _ :: _ => false
  | f + 1, b1 :: rest =>
    match vuStep b1 rest with
    | some r => vuGo f r
    | none => false

def validUtf8 (bs : List ℕ) : Bool := vuGo bs.length bs

/-! ### Data model (the parsed entities) -/

/-- `CameraModel` (lib.rs lines 10-22). -/
inductive CameraModel where
  | SimplePinhole
  | Pinhole
  | SimpleRadial
  | Radial
  | OpenCV
  | OpenCvFishEye
  | FullOpenCV
  | Fov
  | SimpleRadialFisheye
  | RadialFisheye
  | ThinPrismFisheye
deriving DecidableEq, Repr

namespace CameraModel

/-- `CameraModel::from_id` (lib.rs lines 25-40). -/
def fromId : ℤ → Option CameraModel
  | 0 => some SimplePinhole
  | 1 => some Pinhole
  | 2 => some SimpleRadial
  | 3 => some Radial
  | 4 => some OpenCV
  | 5 => some OpenCvFishEye
  | 6 => some FullOpenCV
  | 7 => some Fov
  | 8 => some SimpleRadialFisheye
  | 9 => some RadialFisheye
  | 10 => some ThinPrismFisheye
  | _ => none

/-- `CameraModel::from_name` (lib.rs lines 42-57). -/
def fromName (t : List Char) : Option CameraModel :=
  if t = chars "SIMPLE_PINHOLE" then some SimplePinhole
  else if t = chars "PINHOLE" then some Pinhole
  else if t = chars "SIMPLE_RADIAL" then some SimpleRadial
  else if t = chars "RADIAL" then some Radial
  else if t = chars "OPENCV" then some OpenCV
  else if t = chars "OPENCV_FISHEYE" then some OpenCvFishEye
  else if t = chars "FULL_OPENCV" then some FullOpenCV
  else if t = chars "FOV" then some Fov
  else if t = chars "SIMPLE_RADIAL_FISHEYE" then some SimpleRadialFisheye
  else if t = chars "RADIAL_FISHEYE" then some RadialFisheye
  else if t = chars "THIN_PRISM_FISHEYE" then some ThinPrismFisheye
  else none

/-- `CameraModel::num_params` (lib.rs lines 59-73). -/
def numParams : CameraModel → ℕ
  | SimplePinhole => 3
  | Pinhole => 4
  | SimpleRadial => 4
  | Radial => 5
  | OpenCV => 8
  | OpenCvFishEye => 8
  | FullOpenCV => 12
  | Fov => 5
  | SimpleRadialFisheye => 4
  | RadialFisheye => 5
  | ThinPrismFisheye => 12

end CameraModel

/-- `glam::Vec2` of f32 values. -/
structure Vec2 where
  x : FVal
  y : FVal
deriving DecidableEq, Repr

/-- `glam::Vec3` of f32 values. -/
structure Vec3 where
  x : FVal
  y : FVal
  z : FVal
deriving DecidableEq, Repr

/-- `glam::Quat`; `glam::quat(x, y, z, w)` fills the fields in that
order. -/
structure Quat where
  x : FVal
  y : FVal
  z : FVal
  w : FVal
deriving DecidableEq, Repr

/-- `Camera` (lib.rs lines 76-83). -/
structure Camera where
  id : ℤ
  model : CameraModel
  width : ℕ
  height : ℕ
  params : List FVal
deriving DecidableEq, Repr

/-- `Image` (lib.rs lines 85-93).  The name is kept as its UTF-8 bytes
(a Rust `String` is exactly its validated byte content). -/
structure Image where
  tvec : Vec3
  quat : Quat
  camera_id : ℤ
  name : List ℕ
  xys : List Vec2
  point3d_ids : List ℤ
deriving DecidableEq, Repr

/-- `Point3D` (lib.rs lines 95-102). -/
structure Point3D where
  xyz : Vec3
  rgb : ℕ × ℕ × ℕ
  error : FVal
  image_ids : List ℤ
  point2d_idxs : List ℤ
deriving DecidableEq, Repr

/-- `Camera::focal` (lib.rs lines 105-121): `params[0]`, and `params` at
the model-dependent second index.  Rust indexing would panic were the
index out of range; the default is irrelevant for cameras built by the
readers, whose `params` length always equals `num_params`. -/
def Camera.focal (c : Camera) : FVal × FVal :=
  let x := c.params.getD 0 .nan
  let y := c.params.getD
    (match c.model with
     | .SimplePinhole => 0
     | .Pinhole => 1
     | .SimpleRadial => 0
     | .Radial => 0
     | .OpenCV => 1
     | .OpenCvFishEye => 1
     | .FullOpenCV => 1
     | .Fov => 1
     | .SimpleRadialFisheye => 0
     | .RadialFisheye => 0
     | .ThinPrismFisheye => 1) .nan
  (x, y)

/-- `Camera::principal_point` (lib.rs lines 123-151): the two
model-dependent indices, each narrowed `as f32`. -/
def Camera.principal_point (c : Camera) : Vec2 :=
  let x := narrow (c.params.getD
    (match c.model with
     | .SimplePinhole => 1
     | .Pinhole => 2
     | .SimpleRadial => 1
     | .Radial => 1
     | .OpenCV => 2
     | .OpenCvFishEye => 2
     | .FullOpenCV => 2
     | .Fov => 2
     | .SimpleRadialFisheye => 1
     | .RadialFisheye => 1
     | .ThinPrismFisheye => 2) .nan)
  let y := narrow (c.params.getD
    (match c.model with
     | .SimplePinhole => 2
     | .Pinhole => 3
     | .SimpleRadial => 2
     | .Radial => 2
     | .OpenCV => 3
     | .OpenCvFishEye => 3
     | .FullOpenCV => 3
     | .Fov => 3
     | .SimpleRadialFisheye => 2
     | .RadialFisheye => 2
     | .ThinPrismFisheye => 3) .nan)
  ⟨x, y⟩

/-! ### The output mappings (`HashMap`) -/

/-- `HashMap::insert`: replace any existing binding of the key.  The
mapping is represented as an association list; the specification declares
entry order semantically irrelevant. -/
def upsert {κ α : Type} [DecidableEq κ] (m : List (κ × α)) (k : κ) (v : α) :
    List (κ × α) :=
  m.filter (fun p => p.1 != k) ++ [(k, v)]

abbrev CamMap := List (ℤ × Camera)
abbrev ImgMap := List (ℤ × Image)
abbrev PtMap := List (ℤ × Point3D)

/-! ### Text-mode readers -/

/-- Parse the params tail of a camera line
(`parts[4..].iter().map(parse).collect::<Result<_,_>>()`). -/
def parseParams : List (List Char) → RRes (List FVal)
  | [] => .ok []
  | t :: ts => do
    let v ← pF64 t
    let vs ← parseParams ts
    pure (v :: vs)

/-- The body of one `read_cameras_text` iteration after tokenisation
(lib.rs lines 170-205).  The `< 4` length guard and the safe `parts[0..3]`
accesses plus the `parts[4..]` tail are rendered as one pattern match. -/
def camRecParse : List (List Char) → RRes (ℤ × Camera)
  | t0 :: t1 :: t2 :: t3 :: rest => do
    let id ← pI32 t0
    let model ← match CameraModel.fromName t1 with
      | some m => pure m
      | none => .error .unknownCameraModel
    let width ← pU64 t2
    let height ← pU64 t3
    let params ← parseParams rest
    if params.length ≠ model.numParams then .error .paramCountMismatch
    else .ok (id, ⟨id, model, width, height, params⟩)
  | _ => .error .malformedRecord

/-- The `read_cameras_text` line loop (lib.rs lines 164-207).  The fuel
argument only makes the recursion structural; every iteration consumes at
least one character, so `input.length + 1` fuel can never run out. -/
def camLoopF : ℕ → CamMap → List Char → RRes CamMap
  | _, acc, [] => .ok acc
  | 0, _, _ :: _ => .error .panicked
  | fuel + 1, acc, c :: cs =>
    let p := splitLine (c :: cs)
    if startsHash p.1 then camLoopF fuel acc p.2
    else
      match camRecParse (splitWS p.1) with
      | .error e => .error e
      | .ok (id, cam) => camLoopF fuel (upsert acc id cam) p.2

/-- `read_cameras_text` (lib.rs lines 159-210). -/
def readCamerasText (input : List Char) : RRes CamMap :=
  camLoopF (input.length + 1) [] input

/-- Line A of an image record (lib.rs lines 261-272): the ten fields are
indexed without any length check, so a short line panics; each `parse` is
evaluated right after its index.  Fields 1-4 are the file-order quaternion
(w,x,y,z); `glam::quat(x, y, z, w)` reassembles them. -/
def imgLineA (elems : List (List Char)) :
    RRes (ℤ × Quat × Vec3 × ℤ × List ℕ) := do
  let t0 ← idx elems 0
  let id ← pI32 t0
  let t1 ← idx elems 1
  let w ← pF32 t1
  let t2 ← idx elems 2
  let x ← pF32 t2
  let t3 ← idx elems 3
  let y ← pF32 t3
  let t4 ← idx elems 4
  let z ← pF32 t4
  let t5 ← idx elems 5
  let v1 ← pF32 t5
  let t6 ← idx elems 6
  let v2 ← pF32 t6
  let t7 ← idx elems 7
  let v3 ← pF32 t7
  let t8 ← idx elems 8
  let cameraId ← pI32 t8
  let t9 ← idx elems 9
  pure (id, ⟨x, y, z, w⟩, ⟨v1, v2, v3⟩, cameraId, utf8Bytes t9)

/-- Line B of an image record (lib.rs lines 280-283): `chunks(3)` over the
tokens; within a chunk, `chunk[0]` and `chunk[1]` are parsed as `f32` and
`chunk[2]` as `i64`, and indexing a short final chunk panics. -/
def obsLoop : List (List Char) → RRes (List Vec2 × List ℤ)
  | [] => .ok ([], [])
  | [t0] => do
    let _ ← pF32 t0
    .error .panicked
  | [t0, t1] => do
    let _ ← pF32 t0
    let _ ← pF32 t1
    .error .panicked
  | t0 :: t1 :: t2 :: rest => do
    let x ← pF32 t0
    let y ← pF32 t1
    let pid ← pI64 t2
    let p ← obsLoop rest
    pure (⟨x, y⟩ :: p.1, pid :: p.2)

/-- The `read_images_text` loop (lib.rs lines 253-297): a first line is
skipped only if the buffer is empty or starts with `'#'` (the buffer of a
blank line is `"\n"`, which is not empty); otherwise it is parsed as line
A, the next line is read unconditionally as line B (an absent line B at
end of input reads as the empty buffer), and the record is inserted. -/
def imgLoopF : ℕ → ImgMap → List Char → RRes ImgMap
  | _, acc, [] => .ok acc
  | 0, _, _ :: _ => .error .panicked
  | fuel + 1, acc, c :: cs =>
    let p := splitLine (c :: cs)
    if !p.1.isEmpty && !startsHash p.1 then
      match imgLineA (splitWS p.1) with
      | .error e => .error e
      | .ok (id, quat, tvec, cameraId, name) =>
        let pb := splitLine p.2
        match obsLoop (splitWS pb.1) with
        | .error e => .error e
        | .ok (xys, pids) =>
          imgLoopF fuel (upsert acc id ⟨tvec, quat, cameraId, name, xys, pids⟩) pb.2
    else imgLoopF fuel acc p.2

/-- `read_images_text` (lib.rs lines 246-300). -/
def readImagesText (input : List Char) : RRes ImgMap :=
  imgLoopF (input.length + 1) [] input

/-- The track tail of a point line (lib.rs lines 389-398): `chunks(2)`,
with an explicit `chunk.len() < 2` check before the parses. -/
def trkLoop : List (List Char) → RRes (List ℤ × List ℤ)
  | [] => .ok ([], [])
  | [_] => .error .malformedRecord
  | t0 :: t1 :: rest => do
    let imgId ← pI32 t0
    let p2d ← pI32 t1
    let p ← trkLoop rest
    pure (imgId :: p.1, p2d :: p.2)

/-- The body of one `read_points3d_text` iteration after tokenisation
(lib.rs lines 369-408); the `< 8` guard and the leading accesses are one
pattern match.  Position components are parsed as `f32`
(`glam::Vec3::new`), the error as `f64`. -/
def ptRecParse : List (List Char) → RRes (ℤ × Point3D)
  | t0 :: t1 :: t2 :: t3 :: t4 :: t5 :: t6 :: t7 :: rest => do
    let id ← pI64 t0
    let x ← pF32 t1
    let y ← pF32 t2
    let z ← pF32 t3
    let r ← pU8 t4
    let g ← pU8 t5
    let b ← pU8 t6
    let err ← pF64 t7
    let p ← trkLoop rest
    .ok (id, ⟨⟨x, y, z⟩, (r, g, b), err, p.1, p.2⟩)
  | _ => .error .malformedRecord

/-- The `read_points3d_text` line loop (lib.rs lines 363-411). -/
def ptLoopF : ℕ → PtMap → List Char → RRes PtMap
  | _, acc, [] => .ok acc
  | 0, _, _ :: _ => .error .panicked
  | fuel + 1, acc, c :: cs =>
    let p := splitLine (c :: cs)
    if startsHash p.1 then ptLoopF fuel acc p.2
    else
      match ptRecParse (splitWS p.1) with
      | .error e => .error e
      | .ok (id, pt) => ptLoopF fuel (upsert acc id pt) p.2

/-- `read_points3d_text` (lib.rs lines 358-414). -/
def readPoints3dText (input : List Char) : RRes PtMap :=
  ptLoopF (input.length + 1) [] input

/-! ### Binary-mode primitives (byteorder, little-endian) -/

/-- Read `k` raw bytes (`Read::read_exact` semantics: a truncated stream
yields `UnexpectedEof`). -/
def rdBytes (k : ℕ) (bs : List ℕ) : RRes (List ℕ × List ℕ) :=
  if bs.length < k then .error .unexpectedEof else .ok (bs.take k, bs.drop k)

/-- Little-endian value of a byte list (first byte least significant). -/
def leVal (bs : List ℕ) : ℕ :=
  bs.foldr (fun b acc => b + 256 * acc) 0

def rdU8 (bs : List ℕ) : RRes (ℕ × List ℕ) :=
  match bs with
  | [] => .error .unexpectedEof
  | b :: rest => .ok (b, rest)

def rdU64 (bs : List ℕ) : RRes (ℕ × List ℕ) := do
  let p ← rdBytes 8 bs
  pure (leVal p.1, p.2)

def rdU32 (bs : List ℕ) : RRes (ℕ × List ℕ) := do
  let p ← rdBytes 4 bs
  pure (leVal p.1, p.2)

/-- Two's-complement reinterpretation of a `w`-bit unsigned value. -/
def toSigned (w : ℕ) (n : ℕ) : ℤ :=
  if n < 2 ^ (w - 1) then (n : ℤ) else (n : ℤ) - 2 ^ w

def rdI32 (bs : List ℕ) : RRes (ℤ × List ℕ) := do
  let p ← rdU32 bs
  pure (toSigned 32 p.1, p.2)

def rdI64 (bs : List ℕ) : RRes (ℤ × List ℕ) := do
  let p ← rdU64 bs
  pure (toSigned 64 p.1, p.2)

/-- `read_f64::<LittleEndian>`: 8 bytes decoded as an IEEE binary64. -/
def rdF64 (bs : List ℕ) : RRes (FVal × List ℕ) := do
  let p ← rdU64 bs
  pure (f64ValOfBits p.1, p.2)

/-- `BufRead::read_until(0, ..)`: everything up to and including the first
zero byte; at end of input, everything that remains (this is `Ok`, not an
error). -/
def readUntil0 : List ℕ → List ℕ × List ℕ
  | [] => ([], [])
  | b :: bs =>
    if b = 0 then ([b], bs)
    else
      let p := readUntil0 bs
      (b :: p.1, p.2)

/-! ### Binary-mode readers -/

/-- `num_params` many doubles (lib.rs lines 226-229). -/
def rdF64s : ℕ → List ℕ → RRes (List FVal × List ℕ)
  | 0, bs => .ok ([], bs)
  | k + 1, bs => do
    let p ← rdF64 bs
    let q ← rdF64s k p.2
    pure (p.1 :: q.1, q.2)

/-- One record of `read_cameras_binary` (lib.rs lines 217-240). -/
def camRecB (bs : List ℕ) : RRes ((ℤ × Camera) × List ℕ) := do
  let pid ← rdI32 bs
  let pmid ← rdI32 pid.2
  let pw ← rdU64 pmid.2
  let ph ← rdU64 pw.2
  let model ← match CameraModel.fromId pmid.1 with
    | some m => pure m
    | none => .error .unknownCameraModel
  let pp ← rdF64s model.numParams ph.2
  pure ((pid.1, ⟨pid.1, model, pw.1, ph.1, pp.1⟩), pp.2)

def camLoopB : ℕ → CamMap → List ℕ → RRes CamMap
  | 0, acc, _ => .ok acc
  | n + 1, acc, bs =>
    match camRecB bs with
    | .error e => .error e
    | .ok (kv, rest) => camLoopB n (upsert acc kv.1 kv.2) rest

/-- `read_cameras_binary` (lib.rs lines 212-244). -/
def readCamerasBinary (bs : List ℕ) : RRes CamMap := do
  let pn ← rdU64 bs
  camLoopB pn.1 [] pn.2

/-- The 2D observations of one binary image record
(lib.rs lines 334-340). -/
def obsLoopB : ℕ → List ℕ → RRes ((List Vec2 × List ℤ) × List ℕ)
  | 0, bs => .ok (([], []), bs)
  | k + 1, bs => do
    let px ← rdF64 bs
    let py ← rdF64 px.2
    let ppid ← rdI64 py.2
    let q ← obsLoopB k ppid.2
    pure ((⟨narrow px.1, narrow py.1⟩ :: q.1.1, ppid.1 :: q.1.2), q.2)

/-- One record of `read_images_binary` (lib.rs lines 307-352): id, four
doubles narrowed `as f32` reassembled by `glam::quat(x,y,z,w)`, three
narrowed doubles, camera id, a name read with `read_until(0)` whose last
byte is stripped by `&name_bytes[..name_bytes.len() - 1]` (an empty
buffer makes that index expression panic), UTF-8 validation, then the
observation list. -/
def imgRecB (bs : List ℕ) : RRes ((ℤ × Image) × List ℕ) := do
  let pid ← rdI32 bs
  let pw ← rdF64 pid.2
  let px ← rdF64 pw.2
  let py ← rdF64 px.2
  let pz ← rdF64 py.2
  let quat : Quat := ⟨narrow px.1, narrow py.1, narrow pz.1, narrow pw.1⟩
  let pt1 ← rdF64 pz.2
  let pt2 ← rdF64 pt1.2
  let pt3 ← rdF64 pt2.2
  let tvec : Vec3 := ⟨narrow pt1.1, narrow pt2.1, narrow pt3.1⟩
  let pcam ← rdI32 pt3.2
  let pname := readUntil0 pcam.2
  if pname.1.isEmpty then .error .panicked
  else
    let nameBytes := pname.1.dropLast
    if validUtf8 nameBytes then do
      let pn ← rdU64 pname.2
      let pobs ← obsLoopB pn.1 pn.2
      pure ((pid.1, ⟨tvec, quat, pcam.1, nameBytes, pobs.1.1, pobs.1.2⟩),
        pobs.2)
    else .error .invalidEncoding

def imgLoopB : ℕ → ImgMap → List ℕ → RRes ImgMap
  | 0, acc, _ => .ok acc
  | n + 1, acc, bs =>
    match imgRecB bs with
    | .error e => .error e
    | .ok (kv, rest) => imgLoopB n (upsert acc kv.1 kv.2) rest

/-- `read_images_binary` (lib.rs lines 302-356). -/
def readImagesBinary (bs : List ℕ) : RRes ImgMap := do
  let pn ← rdU64 bs
  imgLoopB pn.1 [] pn.2

/-- The track of one binary point record (lib.rs lines 434-437). -/
def trkLoopB : ℕ → List ℕ → RRes ((List ℤ × List ℤ) × List ℕ)
  | 0, bs => .ok (([], []), bs)
  | k + 1, bs => do
    let pi ← rdI32 bs
    let pp ← rdI32 pi.2
    let q ← trkLoopB k pp.2
    pure ((pi.1 :: q.1.1, pp.1 :: q.1.2), q.2)

/-- One record of `read_points3d_binary` (lib.rs lines 421-447). -/
def ptRecB (bs : List ℕ) : RRes ((ℤ × Point3D) × List ℕ) := do
  let pid ← rdI64 bs
  let px ← rdF64 pid.2
  let py ← rdF64 px.2
  let pz ← rdF64 py.2
  let pr ← rdU8 pz.2
  let pg ← rdU8 pr.2
  let pb ← rdU8 pg.2
  let perr ← rdF64 pb.2
  let ptl ← rdU64 perr.2
  let ptrk ← trkLoopB ptl.1 ptl.2
  pure ((pid.1, ⟨⟨narrow px.1, narrow py.1, narrow pz.1⟩, (pr.1, pg.1, pb.1),
    perr.1, ptrk.1.1, ptrk.1.2⟩), ptrk.2)

def ptLoopB : ℕ → PtMap → List ℕ → RRes PtMap
  | 0, acc, _ => .ok acc
  | n + 1, acc, bs =>
    match ptRecB bs with
    | .error e => .error e
    | .ok (kv, rest) => ptLoopB n (upsert acc kv.1 kv.2) rest

/-- `read_points3d_binary` (lib.rs lines 416-452). -/
def readPoints3dBinary (bs : List ℕ) : RRes PtMap := do
  let pn ← rdU64 bs
  ptLoopB pn.1 [] pn.2

/-!
The public entry points `read_cameras` / `read_images` / `read_points3d`
(lib.rs lines 454-476) just dispatch on the `binary` flag to the
corresponding `_binary` or `_text` function above; each mode is modelled
here at its natural input granularity (bytes for binary, characters for
text, a text source being valid UTF-8 by the time `read_line` yields
lines from it).
-/

/-!
### Specification side: logical reconstructions and their two encodings

The refinement claims (dual-encoding parity, duplicate-id semantics)
quantify over logical reconstructions that possess both a valid text
encoding and a valid binary encoding.  Following the specification's
format description (sections 4.2-4.4 and 6), the encoders below produce,
from a logical record list, a canonical text form (whitespace-separated
tokens, one line per record, two for an image) and the little-endian
binary form.  Logical floating-point fields are carried as binary64 bit
patterns — exactly the information a binary file stores — and the text
encoder prints their exact decimal value, so a record is renderable in
both encodings whenever the well-formedness predicates below hold.
-/

/-- The exact decimal token of the binary64 value with bit pattern `b`
(finite patterns only): `D e-k` with `value = D / 10^k`, using
`m·2^(-k) = m·5^k·10^(-k)`. -/
def f64Tok (b : ℕ) : List Char :=
  let M : ℕ := b % 2 ^ 52
  let E : ℕ := b / 2 ^ 52 % 2 ^ 11
  let s : Bool := b / 2 ^ 63 % 2 = 1
  let Dk : ℕ × ℕ :=
    if E = 0 then (M * 5 ^ 1074, 1074)
    else if 1075 ≤ E then ((2 ^ 52 + M) * 2 ^ (E - 1075), 0)
    else ((2 ^ 52 + M) * 5 ^ (1075 - E), 1075 - E)
  let core := natTok Dk.1 ++ 'e' :: '-' :: natTok Dk.2
  if s then '-' :: core else core

/-- The text name of a camera model (inverse of `from_name`). -/
def modelName : CameraModel → List Char
  | .SimplePinhole => chars "SIMPLE_PINHOLE"
  | .Pinhole => chars "PINHOLE"
  | .SimpleRadial => chars "SIMPLE_RADIAL"
  | .Radial => chars "RADIAL"
  | .OpenCV => chars "OPENCV"
  | .OpenCvFishEye => chars "OPENCV_FISHEYE"
  | .FullOpenCV => chars "FULL_OPENCV"
  | .Fov => chars "FOV"
  | .SimpleRadialFisheye => chars "SIMPLE_RADIAL_FISHEYE"
  | .RadialFisheye => chars "RADIAL_FISHEYE"
  | .ThinPrismFisheye => chars "THIN_PRISM_FISHEYE"

/-- The numeric id of a camera model (inverse of `from_id`). -/
def modelIdN : CameraModel → ℕ
  | .SimplePinhole => 0
  | .Pinhole => 1
  | .SimpleRadial => 2
  | .Radial => 3
  | .OpenCV => 4
  | .OpenCvFishEye => 5
  | .FullOpenCV => 6
  | .Fov => 7
  | .SimpleRadialFisheye => 8
  | .RadialFisheye => 9
  | .ThinPrismFisheye => 10

/-- A logical camera record; floating-point parameters as binary64 bit
patterns. -/
structure CameraRec where
  id : ℤ
  model : CameraModel
  width : ℕ
  height : ℕ
  params : List ℕ
deriving DecidableEq, Repr

/-- One 2D observation of a logical image record. -/
structure ObsRec where
  x : ℕ
  y : ℕ
  pid : ℤ
deriving DecidableEq, Repr

/-- A logical image (pose) record. -/
structure ImageRec where
  id : ℤ
  qw : ℕ
  qx : ℕ
  qy : ℕ
  qz : ℕ
  tx : ℕ
  ty : ℕ
  tz : ℕ
  camId : ℤ
  name : List Char
  obs : List ObsRec
deriving DecidableEq, Repr

/-- A logical 3D point-track record. -/
structure PointRec where
  id : ℤ
  x : ℕ
  y : ℕ
  z : ℕ
  cr : ℕ
  cg : ℕ
  cb : ℕ
  err : ℕ
  track : List (ℤ × ℤ)
deriving DecidableEq, Repr

/-- A finite binary64 bit pattern. -/
def WFf64 (b : ℕ) : Prop := b < 2 ^ 64 ∧ b / 2 ^ 52 % 2 ^ 11 ≠ 2047

/-- In `i32` range. -/
def WFi32 (i : ℤ) : Prop := -2 ^ 31 ≤ i ∧ i < 2 ^ 31

/-- In `i64` range. -/
def WFi64 (i : ℤ) : Prop := -2 ^ 63 ≤ i ∧ i < 2 ^ 63

/-- A name renderable in both encodings: nonempty, free of whitespace
(text mode stores it as one token) and of the NUL terminator. -/
def WFname (s : List Char) : Prop :=
  s ≠ [] ∧ (∀ c ∈ s, isWS c = false) ∧ ∀ c ∈ s, c.toNat ≠ 0

def WFCamRec (r : CameraRec) : Prop :=
  WFi32 r.id ∧ r.width < 2 ^ 64 ∧ r.height < 2 ^ 64 ∧
    r.params.length = r.model.numParams ∧ ∀ b ∈ r.params, WFf64 b

def WFObsRec (o : ObsRec) : Prop := WFf64 o.x ∧ WFf64 o.y ∧ WFi64 o.pid

def WFImgRec (r : ImageRec) : Prop :=
  WFi32 r.id ∧ WFf64 r.qw ∧ WFf64 r.qx ∧ WFf64 r.qy ∧ WFf64 r.qz ∧
    WFf64 r.tx ∧ WFf64 r.ty ∧ WFf64 r.tz ∧ WFi32 r.camId ∧ WFname r.name ∧
    r.obs.length < 2 ^ 64 ∧ ∀ o ∈ r.obs, WFObsRec o

def WFPtRec (r : PointRec) : Prop :=
  WFi64 r.id ∧ WFf64 r.x ∧ WFf64 r.y ∧ WFf64 r.z ∧
    r.cr < 2 ^ 8 ∧ r.cg < 2 ^ 8 ∧ r.cb < 2 ^ 8 ∧ WFf64 r.err ∧
    r.track.length < 2 ^ 64 ∧ ∀ t ∈ r.track, WFi32 t.1 ∧ WFi32 t.2

/-! #### Text encoders -/

/-- Tokens joined by single spaces. -/
def joinSp : List (List Char) → List Char
  | [] => []
  | [t] => t
  | t :: ts => t ++ ' ' :: joinSp ts

/-- One text line: space-separated tokens and a terminating newline. -/
def lineOf (ts : List (List Char)) : List Char :=
  joinSp ts ++ ['\n']

def camTokens (r : CameraRec) : List (List Char) :=
  intTok r.id :: modelName r.model :: natTok r.width :: natTok r.height ::
    r.params.map f64Tok

def camTextEnc (rs : List CameraRec) : List Char :=
  (rs.map (fun r => lineOf (camTokens r))).flatten

/-- Line A tokens of an image record: id, quaternion in file order
(w,x,y,z), translation, camera id, name. -/
def imgTokensA (r : ImageRec) : List (List Char) :=
  [intTok r.id, f64Tok r.qw, f64Tok r.qx, f64Tok r.qy, f64Tok r.qz,
    f64Tok r.tx, f64Tok r.ty, f64Tok r.tz, intTok r.camId, r.name]

/-- Line B tokens: the flat (x, y, point3d_id) triples. -/
def imgTokensB (r : ImageRec) : List (List Char) :=
  (r.obs.map (fun o => [f64Tok o.x, f64Tok o.y, intTok o.pid])).flatten

def imgTextEnc (rs : List ImageRec) : List Char :=
  (rs.map (fun r => lineOf (imgTokensA r) ++ lineOf (imgTokensB r))).flatten

def ptTokens (r : PointRec) : List (List Char) :=
  [intTok r.id, f64Tok r.x, f64Tok r.y, f64Tok r.z, natTok r.cr,
    natTok r.cg, natTok r.cb, f64Tok r.err] ++
    (r.track.map (fun t => [intTok t.1, intTok t.2])).flatten

def ptTextEnc (rs : List PointRec) : List Char :=
  (rs.map (fun r => lineOf (ptTokens r))).flatten

/-! #### Binary encoders -/

/-- `k` little-endian bytes of `n`. -/
def toLe : ℕ → ℕ → List ℕ
  | 0, _ => []
  | k + 1, n => n % 256 :: toLe k (n / 256)

/-- Two's-complement 32-bit image of an integer. -/
def u32ofI32 (i : ℤ) : ℕ := (i % 2 ^ 32).toNat

/-- Two's-complement 64-bit image of an integer. -/
def u64ofI64 (i : ℤ) : ℕ := (i % 2 ^ 64).toNat

def camBinRec (r : CameraRec) : List ℕ :=
  toLe 4 (u32ofI32 r.id) ++ toLe 4 (modelIdN r.model) ++ toLe 8 r.width ++
    toLe 8 r.height ++ (r.params.map (toLe 8)).flatten

def camBinEnc (rs : List CameraRec) : List ℕ :=
  toLe 8 rs.length ++ (rs.map camBinRec).flatten

def imgBinRec (r : ImageRec) : List ℕ :=
  toLe 4 (u32ofI32 r.id) ++ toLe 8 r.qw ++ toLe 8 r.qx ++ toLe 8 r.qy ++
    toLe 8 r.qz ++ toLe 8 r.tx ++ toLe 8 r.ty ++ toLe 8 r.tz ++
    toLe 4 (u32ofI32 r.camId) ++ utf8Bytes r.name ++ [0] ++
    toLe 8 r.obs.length ++
    (r.obs.map (fun o => toLe 8 o.x ++ toLe 8 o.y ++ toLe 8 (u64ofI64 o.pid))).flatten

def imgBinEnc (rs : List ImageRec) : List ℕ :=
  toLe 8 rs.length ++ (rs.map imgBinRec).flatten

def ptBinRec (r : PointRec) : List ℕ :=
  toLe 8 (u64ofI64 r.id) ++ toLe 8 r.x ++ toLe 8 r.y ++ toLe 8 r.z ++
    [r.cr, r.cg, r.cb] ++ toLe 8 r.err ++ toLe 8 r.track.length ++
    (r.track.map (fun t => toLe 4 (u32ofI32 t.1) ++ toLe 4 (u32ofI32 t.2))).flatten

def ptBinEnc (rs : List PointRec) : List ℕ :=
  toLe 8 rs.length ++ (rs.map ptBinRec).flatten

/-! #### The logical entities both decodings must produce -/

/-- The single-precision value of a binary64 pattern (parse-as-f32 of its
exact decimal, and equally the `as f32` narrowing of the double). -/
def n32 (b : ℕ) : FVal := narrow (f64ValOfBits b)

def camEnt (r : CameraRec) : Camera :=
  ⟨r.id, r.model, r.width, r.height, r.params.map f64ValOfBits⟩

def imgEnt (r : ImageRec) : Image :=
  ⟨⟨n32 r.tx, n32 r.ty, n32 r.tz⟩, ⟨n32 r.qx, n32 r.qy, n32 r.qz, n32 r.qw⟩,
    r.camId, utf8Bytes r.name, r.obs.map (fun o => ⟨n32 o.x, n32 o.y⟩),
    r.obs.map (fun o => o.pid)⟩

def ptEnt (r : PointRec) : Point3D :=
  ⟨⟨n32 r.x, n32 r.y, n32 r.z⟩, (r.cr, r.cg, r.cb), f64ValOfBits r.err,
    r.track.map (fun t => t.1), r.track.map (fun t => t.2)⟩

def camMapOf (rs : List CameraRec) : CamMap :=
  rs.foldl (fun m r => upsert m r.id (camEnt r)) []

def imgMapOf (rs : List ImageRec) : ImgMap :=
  rs.foldl (fun m r => upsert m r.id (imgEnt r)) []

def ptMapOf (rs : List PointRec) : PtMap :=
  rs.foldl (fun m r => upsert m r.id (ptEnt r)) []

/-! #### The parameter-layout table claimed by specification section 4.1 -/

/-- Claimed focal-y index per model. -/
def specFocalY : CameraModel → ℕ
  | .SimplePinhole => 0
  | .SimpleRadial => 0
  | .Radial => 0
  | .SimpleRadialFisheye => 0
  | .RadialFisheye => 0
  | _ => 1

/-- Claimed principal-point indices per model. -/
def specPP : CameraModel → ℕ × ℕ
  | .SimplePinhole => (1, 2)
  | .SimpleRadial => (1, 2)
  | .Radial => (1, 2)
  | .SimpleRadialFisheye => (1, 2)
  | .RadialFisheye => (1, 2)
  | _ => (2, 3)

instance (b : ℕ) : Decidable (WFf64 b) := by
  unfold WFf64; infer_instance

instance (i : ℤ) : Decidable (WFi32 i) := by
  unfold WFi32; infer_instance

instance (i : ℤ) : Decidable (WFi64 i) := by
  unfold WFi64; infer_instance

instance (s : List Char) : Decidable (WFname s) := by
  unfold WFname; infer_instance

instance (r : CameraRec) : Decidable (WFCamRec r) := by
  unfold WFCamRec; infer_instance

instance (o : ObsRec) : Decidable (WFObsRec o) := by
  unfold WFObsRec; infer_instance

instance (r : ImageRec) : Decidable (WFImgRec r) := by
  unfold WFImgRec; infer_instance

instance (r : PointRec) : Decidable (WFPtRec r) := by
  unfold WFPtRec; infer_instance

/-- Claimed parameter count per model: the specification section 4.1
table, restated from the spec text for comparison with
`CameraModel.numParams`. -/
def specNumParams : CameraModel → ℕ
  | .SimplePinhole => 3
  | .Pinhole => 4
  | .SimpleRadial => 4
  | .Radial => 5
  | .OpenCV => 8
  | .OpenCvFishEye => 8
  | .FullOpenCV => 12
  | .Fov => 5
  | .SimpleRadialFisheye => 4
  | .RadialFisheye => 5
  | .ThinPrismFisheye => 12

/-! #### Concrete bit patterns and records used as witness instances -/

/-- The binary64 bit pattern of 500.0. -/
def b500 : ℕ := 1031 * 2 ^ 52 + 61 * 2 ^ 46

/-- The binary64 bit pattern of 400.0. -/
def b400 : ℕ := 1031 * 2 ^ 52 + 9 * 2 ^ 48

/-- The binary64 bit pattern of 300.0. -/
def b300 : ℕ := 1031 * 2 ^ 52 + 11 * 2 ^ 46

/-- The binary64 bit pattern of 1.0. -/
def bOne : ℕ := 1023 * 2 ^ 52

/-- A sample camera record. -/
def camW : CameraRec := ⟨1, .Pinhole, 800, 600, [b500, b500, b400, b300]⟩

/-- A second sample camera record with the same id. -/
def camW2 : CameraRec := ⟨1, .SimplePinhole, 640, 480, [b500, b400, b300]⟩

/-- A sample image record. -/
def imgW : ImageRec :=
  ⟨1, bOne, 0, 0, 0, 0, 0, 0, 1, chars "a.png", [⟨bOne, bOne, 5⟩]⟩

/-- A second sample image record with the same id. -/
def imgW2 : ImageRec :=
  ⟨1, 0, bOne, 0, 0, bOne, 0, 0, 2, chars "b.png", []⟩

/-- A sample point record. -/
def ptW : PointRec := ⟨1, bOne, 0, bOne, 10, 20, 30, b300, [(1, 2)]⟩

/-- A second sample point record with the same id. -/
def ptW2 : PointRec := ⟨1, b300, b400, b500, 1, 2, 3, bOne, []⟩

/-!
## Lemmas and theorems

Everything from here on is proof: infrastructure lemmas about the
embedding, the encoder/decoder agreement lemmas, and the claim theorems.
-/

section MonadLemmas

@[simp] theorem exceptBindOk {ε α β : Type} (a : α) (f : α → Except ε β) :
    (Except.ok a >>= f) = f a := rfl

@[simp] theorem exceptBindErr {ε α β : Type} (e : ε) (f : α → Except ε β) :
    ((Except.error e : Except ε α) >>= f) = Except.error e := rfl

@[simp] theorem exceptPureEq {ε α : Type} (a : α) :
    (pure a : Except ε α) = Except.ok a := rfl

end MonadLemmas

section LineLemmas

theorem splitLine_append (l rest : List Char) (h : '\n' ∉ l) :
    splitLine (l ++ '\n' :: rest) = (l ++ ['\n'], rest) := by
  induction l with
  | nil => simp [splitLine]
  | cons c cs ih =>
    have hc : c ≠ '\n' := by intro hc; exact h (by simp [hc])
    have hcs : '\n' ∉ cs := fun hm => h (List.mem_cons_of_mem _ hm)
    simp [splitLine, hc, ih hcs]

theorem splitLine_cons_ne (c : Char) (cs : List Char) (hc : c ≠ '\n') :
    splitLine (c :: cs) = (c :: (splitLine cs).1, (splitLine cs).2) := by
  conv_lhs => rw [splitLine.eq_def]
  simp [hc]

theorem splitLine_noNl : ∀ (l : List Char), '\n' ∉ l → l ≠ [] →
    splitLine l = (l, []) := by
  intro l
  induction l with
  | nil => intro _ h; exact absurd rfl h
  | cons c cs ih =>
    intro h _
    have hc : c ≠ '\n' := fun hc => h (by simp [hc])
    have hcs : '\n' ∉ cs := fun hm => h (List.mem_cons_of_mem _ hm)
    cases cs with
    | nil => simp [splitLine, hc]
    | cons d ds =>
      have h2 := ih hcs (by simp)
      rw [splitLine_cons_ne c _ hc, h2]

end LineLemmas

section TokenLemmas

/-- A well-formed text token: nonempty and whitespace-free. -/
def goodTok (t : List Char) : Prop := t ≠ [] ∧ ∀ c ∈ t, isWS c = false

theorem joinSp_cons₂ (t u : List Char) (us : List (List Char)) :
    joinSp (t :: u :: us) = t ++ ' ' :: joinSp (u :: us) := rfl

theorem lineOf_cons₂ (t u : List Char) (us : List (List Char)) :
    lineOf (t :: u :: us) = t ++ ' ' :: lineOf (u :: us) := by
  simp [lineOf, joinSp_cons₂, List.append_assoc]

theorem splitWSGo_token (t : List Char) (ht : ∀ c ∈ t, isWS c = false) :
    ∀ cur cs, splitWSGo cur (t ++ cs) = splitWSGo (t.reverse ++ cur) cs := by
  induction t with
  | nil => intro cur cs; simp
  | cons c t' ih =>
    intro cur cs
    have hc : isWS c = false := ht c (by simp)
    have ht' : ∀ d ∈ t', isWS d = false := fun d hd => ht d (by simp [hd])
    simp [splitWSGo, hc, ih ht' (c :: cur) cs]

theorem splitWS_lineOf : ∀ (ts : List (List Char)), (∀ t ∈ ts, goodTok t) →
    splitWS (lineOf ts) = ts := by
  intro ts
  induction ts with
  | nil => intro _; simp [lineOf, joinSp, splitWS, splitWSGo, isWS]
  | cons t ts' ih =>
    intro hgood
    have ht : goodTok t := hgood t (by simp)
    have hts' : ∀ u ∈ ts', goodTok u := fun u hu => hgood u (by simp [hu])
    have hrev : t.reverse ≠ [] := by simpa using ht.1
    cases ts' with
    | nil =>
      have hline : lineOf [t] = t ++ ['\n'] := rfl
      unfold splitWS
      rw [hline, splitWSGo_token t ht.2 [] ['\n']]
      simp [splitWSGo, isWS, hrev]
    | cons u us =>
      unfold splitWS
      rw [lineOf_cons₂, splitWSGo_token t ht.2 [] (' ' :: lineOf (u :: us))]
      have hws : isWS ' ' = true := by decide
      simp only [List.append_nil, splitWSGo, hws, if_true, hrev, ite_false,
        if_neg hrev, List.reverse_reverse]
      exact congrArg (t :: ·) (ih hts')

theorem joinSp_noNl : ∀ (ts : List (List Char)), (∀ t ∈ ts, goodTok t) →
    '\n' ∉ joinSp ts := by
  intro ts
  induction ts with
  | nil => intro _; simp [joinSp]
  | cons t ts' ih =>
    intro h
    have ht := (h t (by simp)).2
    have hts' : ∀ u ∈ ts', goodTok u := fun u hu => h u (by simp [hu])
    cases ts' with
    | nil =>
      intro hm
      have hj : joinSp [t] = t := rfl
      rw [hj] at hm
      have := ht '\n' hm
      simp [isWS] at this
    | cons u us =>
      intro hm
      rw [joinSp_cons₂] at hm
      rcases List.mem_append.mp hm with h1 | h2
      · have := ht '\n' h1
        simp [isWS] at this
      · rcases List.mem_cons.mp h2 with h3 | h4
        · exact absurd h3.symm (by decide)
        · exact ih hts' h4

theorem splitLine_lineOf (ts : List (List Char)) (rest : List Char)
    (h : ∀ t ∈ ts, goodTok t) :
    splitLine (lineOf ts ++ rest) = (lineOf ts, rest) := by
  unfold lineOf
  rw [List.append_assoc]
  exact splitLine_append (joinSp ts) rest (joinSp_noNl ts h)

theorem lineOf_ne_nil (ts : List (List Char)) : lineOf ts ≠ [] := by
  unfold lineOf
  simp

theorem startsHash_lineOf (c : Char) (t' : List Char) (ts : List (List Char))
    (hc : c ≠ '#') : startsHash (lineOf ((c :: t') :: ts)) = false := by
  cases ts with
  | nil =>
    have h1 : lineOf [c :: t'] = c :: (t' ++ ['\n']) := rfl
    rw [h1]
    simp [startsHash, hc]
  | cons u us =>
    rw [lineOf_cons₂]
    have h1 : (c :: t') ++ ' ' :: lineOf (u :: us) =
        c :: (t' ++ ' ' :: lineOf (u :: us)) := rfl
    rw [h1]
    simp [startsHash, hc]

theorem flatten_length_ge {α : Type} (l : List (List α))
    (h : ∀ x ∈ l, x ≠ []) : l.length ≤ l.flatten.length := by
  induction l with
  | nil => simp
  | cons x xs ih =>
    have hx : x ≠ [] := h x (by simp)
    have hlen : 1 ≤ x.length := by
      cases x with
      | nil => exact absurd rfl hx
      | cons _ _ => simp
    have := ih (fun y hy => h y (by simp [hy]))
    simp only [List.flatten_cons, List.length_append, List.length_cons]
    omega

end TokenLemmas

section DigitLemmas

theorem digitsAux_eq : ∀ (fuel n : ℕ), n < 10 ^ fuel →
    digitsAux fuel n = Nat.digits 10 n := by
  intro fuel
  induction fuel with
  | zero =>
    intro n h
    have : n = 0 := by omega
    subst this
    simp [digitsAux]
  | succ f ih =>
    intro n h
    by_cases h0 : n = 0
    · subst h0; simp [digitsAux]
    · have hdiv : n / 10 < 10 ^ f := by
        rw [Nat.div_lt_iff_lt_mul (by norm_num)]
        calc n < 10 ^ (f + 1) := h
        _ = 10 ^ f * 10 := by ring
      have hstep : digitsAux (f + 1) n = n % 10 :: digitsAux f (n / 10) := by
        simp [digitsAux, h0]
      rw [hstep, ih (n / 10) hdiv,
        Nat.digits_def' (by norm_num : (1:ℕ) < 10) (Nat.pos_of_ne_zero h0)]

theorem digitChar_props (d : ℕ) (hd : d < 10) :
    (digitChar d).isDigit = true ∧ digitVal (digitChar d) = d := by
  interval_cases d <;> exact ⟨by decide, by decide⟩

/-- Every character property we need about a decimal digit character. -/
theorem isDigit_side (c : Char) (h : c.isDigit = true) :
    isWS c = false ∧ c ≠ '#' ∧ c ≠ '-' ∧ c ≠ '+' ∧ c ≠ '.' ∧ c ≠ 'e' ∧
      c ≠ 'E' ∧ lowerChar c = c ∧ c ≠ '\n' := by
  have hlo : 48 ≤ c.val.toNat ∧ c.val.toNat ≤ 57 := by
    simp only [Char.isDigit, Bool.and_eq_true, decide_eq_true_eq, ge_iff_le] at h
    exact ⟨h.1, h.2⟩
  have hne : ∀ (x : Char), x.val.toNat < 48 ∨ 57 < x.val.toNat → c ≠ x := by
    intro x hx heq
    rw [heq] at hlo
    omega
  refine ⟨?_, hne '#' (by decide), hne '-' (by decide), hne '+' (by decide),
    hne '.' (by decide), hne 'e' (by decide), hne 'E' (by decide), ?_,
    hne '\n' (by decide)⟩
  · by_contra hws
    simp only [Bool.not_eq_false] at hws
    simp only [isWS, Bool.or_eq_true, decide_eq_true_eq] at hws
    rcases hws with ((((h1 | h1) | h1) | h1) | h1) | h1 <;>
      (rw [h1] at hlo; revert hlo; decide)
  · unfold lowerChar
    rw [if_neg]
    intro hAZ
    have h3 : (65 : ℕ) ≤ c.val.toNat := by exact_mod_cast hAZ.1
    have h4 : c.val.toNat ≤ (90 : ℕ) := by exact_mod_cast hAZ.2
    omega

theorem natTok_all_digits (n : ℕ) (h : n < 10 ^ 2000) :
    ∀ c ∈ natTok n, c.isDigit = true := by
  intro c hc
  unfold natTok at hc
  by_cases h0 : n = 0
  · simp [h0] at hc
    subst hc
    decide
  · rw [if_neg h0, digitsAux_eq 2000 n h] at hc
    rcases List.mem_map.mp hc with ⟨d, hd, rfl⟩
    have hd10 : d < 10 :=
      Nat.digits_lt_base (by norm_num) (List.mem_reverse.mp hd)
    exact (digitChar_props d hd10).1

theorem digitsAux_succ (f n : ℕ) (h0 : n ≠ 0) :
    digitsAux (f + 1) n = n % 10 :: digitsAux f (n / 10) := by
  simp [digitsAux, h0]

theorem natTok_ne_nil (n : ℕ) : natTok n ≠ [] := by
  unfold natTok
  by_cases h0 : n = 0
  · simp [h0]
  · rw [if_neg h0, show (2000 : ℕ) = 1999 + 1 from rfl,
      digitsAux_succ 1999 n h0]
    simp

theorem foldl_digits (L : List ℕ) (hL : ∀ d ∈ L, d < 10) : ∀ (a : ℕ),
    List.foldl (fun acc c => 10 * acc + digitVal c) a ((L.reverse).map digitChar) =
      a * 10 ^ L.length + Nat.ofDigits 10 L := by
  induction L with
  | nil => intro a; simp [Nat.ofDigits]
  | cons d ds ih =>
    intro a
    have hd10 : d < 10 := hL d (by simp)
    have hds : ∀ x ∈ ds, x < 10 := fun x hx => hL x (by simp [hx])
    rw [List.reverse_cons, List.map_append, List.foldl_append, ih hds a]
    simp only [List.map_cons, List.map_nil, List.foldl_cons, List.foldl_nil,
      (digitChar_props d hd10).2, Nat.ofDigits_cons, List.length_cons]
    ring

theorem natV_natTok (n : ℕ) (h : n < 10 ^ 2000) : natV (natTok n) = n := by
  unfold natV natTok
  by_cases h0 : n = 0
  · simp [h0, digitVal]
  · rw [if_neg h0, digitsAux_eq 2000 n h,
      foldl_digits (Nat.digits 10 n)
        (fun d hd => Nat.digits_lt_base (by norm_num) hd) 0]
    simp [Nat.ofDigits_digits]

theorem parseNat_natTok (n : ℕ) (h : n < 10 ^ 2000) :
    parseNat (natTok n) = some n := by
  unfold parseNat
  rw [if_pos ⟨natTok_ne_nil n, List.all_eq_true.mpr
    (fun c hc => natTok_all_digits n h c hc)⟩, natV_natTok n h]

end DigitLemmas

section ParseRoundtrips

theorem isDigit_ne (c : Char) (h : c.isDigit = true) {x : Char}
    (hx : x.val.toNat < 48 ∨ 57 < x.val.toNat) : c ≠ x := by
  have hlo : 48 ≤ c.val.toNat ∧ c.val.toNat ≤ 57 := by
    simp only [Char.isDigit, Bool.and_eq_true, decide_eq_true_eq, ge_iff_le] at h
    exact ⟨h.1, h.2⟩
  intro heq
  rw [heq] at hlo
  omega

theorem natTok_head (n : ℕ) (h : n < 10 ^ 2000) :
    ∃ c cs, natTok n = c :: cs ∧ c.isDigit = true := by
  cases hcons : natTok n with
  | nil => exact absurd hcons (natTok_ne_nil n)
  | cons c cs =>
    exact ⟨c, cs, rfl, natTok_all_digits n h c (by rw [hcons]; simp)⟩

theorem parseUns_natTok (n : ℕ) (h : n < 10 ^ 2000) :
    parseUns (natTok n) = some n := by
  obtain ⟨c, cs, hcons, hdig⟩ := natTok_head n h
  have hplus : c ≠ '+' := isDigit_ne c hdig (by decide)
  rw [hcons, show parseUns (c :: cs) = parseNat (c :: cs) from by
    simp [parseUns, hplus], ← hcons]
  exact parseNat_natTok n h

theorem parseInt_intTok (i : ℤ) (h : i.natAbs < 10 ^ 2000) :
    parseInt (intTok i) = some i := by
  unfold intTok
  by_cases hneg : i < 0
  · rw [if_pos hneg]
    have hlt : (-i).toNat < 10 ^ 2000 := by omega
    have hcast : (((-i).toNat : ℤ)) = -i := Int.toNat_of_nonneg (by omega)
    simp [parseInt, parseNat_natTok _ hlt, hcast]
  · rw [if_neg hneg]
    have hb : i.toNat < 10 ^ 2000 := by omega
    obtain ⟨c, cs, hcons, hdig⟩ := natTok_head i.toNat hb
    have hplus : c ≠ '+' := isDigit_ne c hdig (by decide)
    have hminus : c ≠ '-' := isDigit_ne c hdig (by decide)
    rw [hcons, show parseInt (c :: cs) =
        (parseNat (c :: cs)).map (fun n => (n : ℤ)) from by
      simp [parseInt, hplus, hminus], ← hcons, parseNat_natTok _ hb]
    simp
    omega

theorem pI32_intTok (i : ℤ) (h : WFi32 i) : pI32 (intTok i) = .ok i := by
  have habs : i.natAbs < 10 ^ 2000 := by
    rcases h with ⟨h1, h2⟩
    have : i.natAbs ≤ 2 ^ 31 := by omega
    calc i.natAbs ≤ 2 ^ 31 := this
    _ < 10 ^ 2000 := by norm_num
  unfold pI32
  rw [parseInt_intTok i habs]
  have h1 := h.1
  have h2 := h.2
  simp only []
  rw [if_pos (by constructor <;> omega)]

theorem pI64_intTok (i : ℤ) (h : WFi64 i) : pI64 (intTok i) = .ok i := by
  have habs : i.natAbs < 10 ^ 2000 := by
    rcases h with ⟨h1, h2⟩
    have : i.natAbs ≤ 2 ^ 63 := by omega
    calc i.natAbs ≤ 2 ^ 63 := this
    _ < 10 ^ 2000 := by norm_num
  unfold pI64
  rw [parseInt_intTok i habs]
  have h1 := h.1
  have h2 := h.2
  simp only []
  rw [if_pos (by constructor <;> omega)]

theorem pU64_natTok (n : ℕ) (h : n < 2 ^ 64) : pU64 (natTok n) = .ok n := by
  unfold pU64
  rw [parseUns_natTok n (by calc n < 2 ^ 64 := h
    _ < 10 ^ 2000 := by norm_num)]
  simp only []
  rw [if_pos h]

theorem pU8_natTok (n : ℕ) (h : n < 2 ^ 8) : pU8 (natTok n) = .ok n := by
  unfold pU8
  rw [parseUns_natTok n (by calc n < 2 ^ 8 := h
    _ < 10 ^ 2000 := by norm_num)]
  simp only []
  rw [if_pos h]

theorem spanDigits_append (t : List Char) (c₀ : Char) (rest : List Char)
    (ht : ∀ c ∈ t, c.isDigit = true) (hc : c₀.isDigit = false) :
    spanDigits (t ++ c₀ :: rest) = (t, c₀ :: rest) := by
  unfold spanDigits
  induction t with
  | nil => simp [List.takeWhile, List.dropWhile, hc]
  | cons c t' ih =>
    have h1 : c.isDigit = true := ht c (by simp)
    have h2 : ∀ d ∈ t', d.isDigit = true := fun d hd => ht d (by simp [hd])
    have := ih h2
    simp only [List.cons_append, List.takeWhile_cons, List.dropWhile_cons, h1]
    simp only [Prod.mk.injEq] at this
    simp [this.1, this.2]

end ParseRoundtrips

section FloatTokens

theorem decV_natTok (D k : ℕ) (hD : D < 10 ^ 2000) :
    decV (natTok D) [] (-(k : ℤ)) = mkDec (D : ℤ) k := by
  unfold decV
  have hnV : natV ([] : List Char) = 0 := rfl
  simp only [List.length_nil, pow_zero, Nat.mul_one, hnV, Nat.add_zero,
    Nat.cast_ofNat, Nat.sub_zero, Nat.cast_zero, sub_zero]
  rw [natV_natTok D hD]
  by_cases hk : k = 0
  · subst hk
    norm_num
  · rw [if_neg (by omega)]
    congr 1
    omega

theorem parseFUns_expTok (D k : ℕ) (hD : D < 10 ^ 2000) (hk : k < 10 ^ 2000) :
    parseFUns (natTok D ++ 'e' :: '-' :: natTok k) =
      some (.finite (mkDec (D : ℤ) k)) := by
  obtain ⟨c, cs, hcons, hdig⟩ := natTok_head D hD
  have hside := isDigit_side c hdig
  have hlower : lowerChar c = c := hside.2.2.2.2.2.2.2.1
  have hi : c ≠ 'i' := isDigit_ne c hdig (by decide)
  have hn : c ≠ 'n' := isDigit_ne c hdig (by decide)
  have hspan := spanDigits_append (natTok D) 'e' ('-' :: natTok k)
    (natTok_all_digits D hD) (by decide)
  have hmap : (natTok D ++ 'e' :: '-' :: natTok k).map lowerChar =
      c :: ((cs ++ 'e' :: '-' :: natTok k).map lowerChar) := by
    rw [hcons]
    simp [hlower]
  unfold parseFUns
  rw [hmap, hspan]
  rw [if_neg (by simp [hi]), if_neg (by simp [hn])]
  have hE : ('e' = 'e' ∨ 'e' = 'E') := Or.inl rfl
  have hexp : parseExpInt ('-' :: natTok k) = some (-(k : ℤ)) := by
    simp [parseExpInt, parseNat_natTok k hk]
  have hnn : natTok D ≠ [] := natTok_ne_nil D
  simp [hE, hnn, hexp, decV_natTok D k hD]

theorem parseF_f64Tok (b : ℕ) (hb : WFf64 b) :
    parseF (f64Tok b) = some (f64ValOfBits b) := by
  obtain ⟨hb64, hbE⟩ := hb
  have hM : b % 2 ^ 52 < 2 ^ 52 := Nat.mod_lt _ (by norm_num)
  have hE : b / 2 ^ 52 % 2 ^ 11 < 2048 := Nat.mod_lt _ (by norm_num)
  set M := b % 2 ^ 52 with hMdef
  set E := b / 2 ^ 52 % 2 ^ 11 with hEdef
  have hpow : (2 : ℕ) ^ 1074 * 5 ^ 1074 = 10 ^ 1074 := by
    rw [← Nat.mul_pow]
  have hb1 : M * 5 ^ 1074 < 10 ^ 2000 := by
    calc M * 5 ^ 1074 ≤ 2 ^ 52 * 5 ^ 1074 := by gcongr
    _ ≤ 2 ^ 1074 * 5 ^ 1074 := by gcongr <;> norm_num
    _ = 10 ^ 1074 := hpow
    _ < 10 ^ 2000 := by gcongr <;> norm_num
  have hb2 : ∀ j : ℕ, j ≤ 1074 → (2 ^ 52 + M) * 5 ^ j < 10 ^ 2000 := by
    intro j hj
    calc (2 ^ 52 + M) * 5 ^ j ≤ 2 ^ 53 * 5 ^ 1074 := by gcongr <;> omega
    _ ≤ 2 ^ 1074 * 5 ^ 1074 := by gcongr <;> norm_num
    _ = 10 ^ 1074 := hpow
    _ < 10 ^ 2000 := by gcongr <;> norm_num
  have hb3 : ∀ j : ℕ, j ≤ 971 → (2 ^ 52 + M) * 2 ^ j < 10 ^ 2000 := by
    intro j hj
    calc (2 ^ 52 + M) * 2 ^ j ≤ 2 ^ 53 * 2 ^ 971 := by gcongr <;> omega
    _ = 2 ^ 1024 := by norm_num
    _ < 10 ^ 2000 := by norm_num
  have hk2000 : ∀ j : ℕ, j ≤ 1074 → j < 10 ^ 2000 := by
    intro j hj
    calc j ≤ 1074 := hj
    _ < 10 ^ 2000 := by norm_num
  -- the (mantissa, exponent) pair printed and the magnitude decoded agree
  have key : ∀ (D k : ℕ), D < 10 ^ 2000 → k < 10 ^ 2000 →
      ∀ (mag : Dec), mag = mkDec (D : ℤ) k →
      parseF (natTok D ++ 'e' :: '-' :: natTok k) = some (.finite mag) ∧
      parseF ('-' :: (natTok D ++ 'e' :: '-' :: natTok k)) =
        some (.finite mag.neg) := by
    intro D k hD hk mag hmag
    obtain ⟨c, cs, hcons, hdig⟩ := natTok_head D hD
    have hside := isDigit_side c hdig
    have hminus : c ≠ '-' := hside.2.2.1
    have hplus : c ≠ '+' := hside.2.2.2.1
    constructor
    · rw [hcons, show parseF (c :: cs ++ 'e' :: '-' :: natTok k) =
          parseFUns (c :: cs ++ 'e' :: '-' :: natTok k) from by
        simp [parseF, hminus, hplus], ← hcons,
        parseFUns_expTok D k hD hk, hmag]
    · rw [show parseF ('-' :: (natTok D ++ 'e' :: '-' :: natTok k)) =
          (parseFUns (natTok D ++ 'e' :: '-' :: natTok k)).map FVal.neg from
        rfl, parseFUns_expTok D k hD hk, hmag]
      rfl
  have hfin : ∀ (D k : ℕ), D < 10 ^ 2000 → k < 10 ^ 2000 →
      ∀ (mag : Dec), mag = mkDec (D : ℤ) k → ∀ (s : Bool),
      parseF (if s then '-' :: (natTok D ++ 'e' :: '-' :: natTok k)
          else natTok D ++ 'e' :: '-' :: natTok k) =
        some (.finite (if s then mag.neg else mag)) := by
    intro D k hD hk mag hmag s
    cases s
    · simpa using (key D k hD hk mag hmag).1
    · simpa using (key D k hD hk mag hmag).2
  by_cases hE0 : E = 0
  · have htok : f64Tok b =
        if (decide (b / 2 ^ 63 % 2 = 1)) then
          '-' :: (natTok (M * 5 ^ 1074) ++ 'e' :: '-' :: natTok 1074)
        else natTok (M * 5 ^ 1074) ++ 'e' :: '-' :: natTok 1074 := by
      simp only [f64Tok, ← hMdef, ← hEdef]
      rw [if_pos hE0]
    have hmag : dyadic (M : ℤ) (-1074) = mkDec ((M * 5 ^ 1074 : ℕ) : ℤ) 1074 := by
      have h1 : (-(-1074 : ℤ)).toNat = 1074 := rfl
      unfold dyadic
      rw [if_neg (by norm_num), h1]
      congr 1
    have hdec : f64ValOfBits b =
        .finite (if (decide (b / 2 ^ 63 % 2 = 1)) then
          (mkDec ((M * 5 ^ 1074 : ℕ) : ℤ) 1074).neg
        else mkDec ((M * 5 ^ 1074 : ℕ) : ℤ) 1074) := by
      simp only [f64ValOfBits, ← hMdef, ← hEdef]
      rw [if_neg hbE, if_pos hE0, hmag]
    rw [htok, hdec]
    exact hfin (M * 5 ^ 1074) 1074 hb1 (hk2000 1074 le_rfl) _ rfl _
  · by_cases hE75 : 1075 ≤ E
    · have hsub : ((E : ℤ) - 1075).toNat = E - 1075 := by omega
      have htok : f64Tok b =
          if (decide (b / 2 ^ 63 % 2 = 1)) then
            '-' :: (natTok ((2 ^ 52 + M) * 2 ^ (E - 1075)) ++
              'e' :: '-' :: natTok 0)
          else natTok ((2 ^ 52 + M) * 2 ^ (E - 1075)) ++
            'e' :: '-' :: natTok 0 := by
        simp only [f64Tok, ← hMdef, ← hEdef]
        rw [if_neg hE0, if_pos hE75]
      have hmag : dyadic ((2 ^ 52 + M : ℕ) : ℤ) ((E : ℤ) - 1075) =
          mkDec (((2 ^ 52 + M) * 2 ^ (E - 1075) : ℕ) : ℤ) 0 := by
        unfold dyadic
        rw [if_pos (by omega), hsub]
        congr 1
      have hdec : f64ValOfBits b =
          .finite (if (decide (b / 2 ^ 63 % 2 = 1)) then
            (mkDec (((2 ^ 52 + M) * 2 ^ (E - 1075) : ℕ) : ℤ) 0).neg
          else mkDec (((2 ^ 52 + M) * 2 ^ (E - 1075) : ℕ) : ℤ) 0) := by
        simp only [f64ValOfBits, ← hMdef, ← hEdef]
        rw [if_neg hbE, if_neg hE0, hmag]
      rw [htok, hdec]
      exact hfin ((2 ^ 52 + M) * 2 ^ (E - 1075)) 0
        (hb3 (E - 1075) (by omega)) (by norm_num) _ rfl _
    · have hsub : (-((E : ℤ) - 1075)).toNat = 1075 - E := by omega
      have htok : f64Tok b =
          if (decide (b / 2 ^ 63 % 2 = 1)) then
            '-' :: (natTok ((2 ^ 52 + M) * 5 ^ (1075 - E)) ++
              'e' :: '-' :: natTok (1075 - E))
          else natTok ((2 ^ 52 + M) * 5 ^ (1075 - E)) ++
            'e' :: '-' :: natTok (1075 - E) := by
        simp only [f64Tok, ← hMdef, ← hEdef]
        rw [if_neg hE0, if_neg hE75]
      have hmag : dyadic ((2 ^ 52 + M : ℕ) : ℤ) ((E : ℤ) - 1075) =
          mkDec (((2 ^ 52 + M) * 5 ^ (1075 - E) : ℕ) : ℤ) (1075 - E) := by
        unfold dyadic
        rw [if_neg (by omega), hsub]
        congr 1
      have hdec : f64ValOfBits b =
          .finite (if (decide (b / 2 ^ 63 % 2 = 1)) then
            (mkDec (((2 ^ 52 + M) * 5 ^ (1075 - E) : ℕ) : ℤ) (1075 - E)).neg
          else mkDec (((2 ^ 52 + M) * 5 ^ (1075 - E) : ℕ) : ℤ) (1075 - E)) := by
        simp only [f64ValOfBits, ← hMdef, ← hEdef]
        rw [if_neg hbE, if_neg hE0, hmag]
      rw [htok, hdec]
      exact hfin ((2 ^ 52 + M) * 5 ^ (1075 - E)) (1075 - E)
        (hb2 (1075 - E) (by omega)) (hk2000 (1075 - E) (by omega)) _ rfl _

theorem pF64_f64Tok (b : ℕ) (hb : WFf64 b) :
    pF64 (f64Tok b) = .ok (f64ValOfBits b) := by
  unfold pF64
  rw [parseF_f64Tok b hb]

theorem pF32_f64Tok (b : ℕ) (hb : WFf64 b) :
    pF32 (f64Tok b) = .ok (narrow (f64ValOfBits b)) := by
  unfold pF32
  rw [parseF_f64Tok b hb]

end FloatTokens

section ModelLemmas

theorem fromName_modelName (m : CameraModel) :
    CameraModel.fromName (modelName m) = some m := by
  cases m <;> rfl

theorem fromId_modelIdN (m : CameraModel) :
    CameraModel.fromId ((modelIdN m : ℕ) : ℤ) = some m := by
  cases m <;> rfl

end ModelLemmas

section GoodTokens

theorem digitsAux_lt : ∀ (fuel n : ℕ), ∀ d ∈ digitsAux fuel n, d < 10 := by
  intro fuel
  induction fuel with
  | zero => intro n d hd; simp [digitsAux] at hd
  | succ f ih =>
    intro n d hd
    by_cases h0 : n = 0
    · subst h0; simp [digitsAux] at hd
    · rw [digitsAux_succ f n h0] at hd
      rcases List.mem_cons.mp hd with h1 | h2
      · subst h1; exact Nat.mod_lt _ (by norm_num)
      · exact ih (n / 10) d h2

theorem natTok_digitsAll (n : ℕ) : ∀ c ∈ natTok n, c.isDigit = true := by
  intro c hc
  unfold natTok at hc
  by_cases h0 : n = 0
  · simp [h0] at hc
    subst hc
    decide
  · rw [if_neg h0] at hc
    rcases List.mem_map.mp hc with ⟨d, hd, rfl⟩
    exact (digitChar_props d (digitsAux_lt 2000 n d (List.mem_reverse.mp hd))).1

theorem goodTok_natTok (n : ℕ) : goodTok (natTok n) :=
  ⟨natTok_ne_nil n, fun c hc => (isDigit_side c (natTok_digitsAll n c hc)).1⟩

theorem goodTok_intTok (i : ℤ) : goodTok (intTok i) := by
  unfold intTok
  by_cases hneg : i < 0
  · rw [if_pos hneg]
    refine ⟨by simp, ?_⟩
    intro c hc
    rcases List.mem_cons.mp hc with h1 | h2
    · subst h1; decide
    · exact (goodTok_natTok _).2 c h2
  · rw [if_neg hneg]
    exact goodTok_natTok _

theorem goodTok_expShape (D k : ℕ) (s : Bool) :
    goodTok (if s then '-' :: (natTok D ++ 'e' :: '-' :: natTok k)
      else natTok D ++ 'e' :: '-' :: natTok k) := by
  have hcore : goodTok (natTok D ++ 'e' :: '-' :: natTok k) := by
    refine ⟨by simp [natTok_ne_nil D], ?_⟩
    intro c hc
    rcases List.mem_append.mp hc with h1 | h2
    · exact (goodTok_natTok D).2 c h1
    · rcases List.mem_cons.mp h2 with h3 | h4
      · subst h3; decide
      · rcases List.mem_cons.mp h4 with h5 | h6
        · subst h5; decide
        · exact (goodTok_natTok k).2 c h6
  cases s
  · simpa using hcore
  · simp only [if_true]
    refine ⟨by simp, ?_⟩
    intro c hc
    rcases List.mem_cons.mp hc with h1 | h2
    · subst h1; decide
    · exact hcore.2 c h2

theorem goodTok_f64Tok (b : ℕ) : goodTok (f64Tok b) := by
  simp only [f64Tok]
  exact goodTok_expShape _ _ _

theorem goodTok_modelName (m : CameraModel) : goodTok (modelName m) := by
  cases m <;> exact ⟨by decide, by decide⟩

theorem intTok_head (i : ℤ) : ∃ c cs, intTok i = c :: cs ∧ c ≠ '#' := by
  unfold intTok
  by_cases hneg : i < 0
  · exact ⟨'-', _, by rw [if_pos hneg], by decide⟩
  · rw [if_neg hneg]
    obtain ⟨c, cs, hcons⟩ : ∃ c cs, natTok i.toNat = c :: cs := by
      cases h : natTok i.toNat with
      | nil => exact absurd h (natTok_ne_nil _)
      | cons c cs => exact ⟨c, cs, rfl⟩
    refine ⟨c, cs, hcons, ?_⟩
    have hdig : c.isDigit = true := natTok_digitsAll i.toNat c (by simp [hcons])
    exact (isDigit_side c hdig).2.1

end GoodTokens

section CameraTextEnc

theorem parseParams_enc (ps : List ℕ) (h : ∀ b ∈ ps, WFf64 b) :
    parseParams (ps.map f64Tok) = .ok (ps.map f64ValOfBits) := by
  induction ps with
  | nil => rfl
  | cons b bs ih =>
    have hb : WFf64 b := h b (by simp)
    have hbs : ∀ x ∈ bs, WFf64 x := fun x hx => h x (by simp [hx])
    simp [parseParams, pF64_f64Tok b hb, ih hbs]

theorem camRecParse_enc (r : CameraRec) (hr : WFCamRec r) :
    camRecParse (camTokens r) = .ok (r.id, camEnt r) := by
  obtain ⟨h1, h2, h3, h4, h5⟩ := hr
  have hlen : (r.params.map f64ValOfBits).length = r.model.numParams := by
    simp [h4]
  simp [camTokens, camRecParse, pI32_intTok r.id h1, fromName_modelName,
    pU64_natTok r.width h2, pU64_natTok r.height h3, parseParams_enc r.params h5,
    hlen, camEnt]

theorem camTokens_good (r : CameraRec) : ∀ t ∈ camTokens r, goodTok t := by
  intro t ht
  simp only [camTokens, List.mem_cons] at ht
  rcases ht with rfl | rfl | rfl | rfl | hmem
  · exact goodTok_intTok r.id
  · exact goodTok_modelName r.model
  · exact goodTok_natTok r.width
  · exact goodTok_natTok r.height
  · rcases List.mem_map.mp hmem with ⟨b, _, rfl⟩
    exact goodTok_f64Tok b

theorem camLoopF_cons (f : ℕ) (acc : CamMap) (c : Char) (cs : List Char) :
    camLoopF (f + 1) acc (c :: cs) =
      (let p := splitLine (c :: cs)
       if startsHash p.1 then camLoopF f acc p.2
       else
         match camRecParse (splitWS p.1) with
         | .error e => .error e
         | .ok (id, cam) => camLoopF f (upsert acc id cam) p.2) := rfl

theorem camLoopF_nil (f : ℕ) (acc : CamMap) : camLoopF f acc [] = .ok acc := by
  cases f <;> rfl

theorem camLoopF_step (r : CameraRec) (hr : WFCamRec r) (rest : List Char)
    (f : ℕ) (acc : CamMap) :
    camLoopF (f + 1) acc (lineOf (camTokens r) ++ rest) =
      camLoopF f (upsert acc r.id (camEnt r)) rest := by
  have hgood := camTokens_good r
  obtain ⟨c₀, t', hhead, hc₀⟩ := intTok_head r.id
  have hstart : startsHash (lineOf (camTokens r)) = false := by
    have : camTokens r = (c₀ :: t') :: (modelName r.model :: natTok r.width ::
        natTok r.height :: r.params.map f64Tok) := by
      rw [show camTokens r = intTok r.id :: (modelName r.model :: natTok r.width ::
        natTok r.height :: r.params.map f64Tok) from rfl, hhead]
    rw [this]
    exact startsHash_lineOf c₀ t' _ hc₀
  obtain ⟨c, cs, hcons⟩ : ∃ c cs, lineOf (camTokens r) ++ rest = c :: cs := by
    cases h : lineOf (camTokens r) ++ rest with
    | nil =>
      rcases List.append_eq_nil.mp h with ⟨h1, _⟩
      exact absurd h1 (lineOf_ne_nil _)
    | cons c cs => exact ⟨c, cs, rfl⟩
  rw [hcons, camLoopF_cons, ← hcons, splitLine_lineOf _ _ hgood]
  simp only [hstart, if_false, Bool.false_eq_true, splitWS_lineOf _ hgood,
    camRecParse_enc r hr]

theorem camLoopF_enc : ∀ (rs : List CameraRec) (f : ℕ) (acc : CamMap),
    rs.length < f → (∀ r ∈ rs, WFCamRec r) →
    camLoopF f acc (camTextEnc rs) =
      .ok (rs.foldl (fun m r => upsert m r.id (camEnt r)) acc) := by
  intro rs
  induction rs with
  | nil =>
    intro f acc _ _
    rw [show camTextEnc [] = [] from rfl, camLoopF_nil]
    rfl
  | cons r rs' ih =>
    intro f acc hlen hwf
    obtain ⟨f', rfl⟩ : ∃ f', f = f' + 1 := ⟨f - 1, by omega⟩
    have henc : camTextEnc (r :: rs') =
        lineOf (camTokens r) ++ camTextEnc rs' := by
      simp [camTextEnc]
    rw [henc, camLoopF_step r (hwf r (by simp)) _ _ _,
      ih f' _ (by simpa using Nat.lt_of_succ_lt_succ hlen)
        (fun x hx => hwf x (by simp [hx]))]
    rfl

theorem readCamerasText_enc (rs : List CameraRec)
    (hwf : ∀ r ∈ rs, WFCamRec r) :
    readCamerasText (camTextEnc rs) = .ok (camMapOf rs) := by
  unfold readCamerasText camMapOf
  apply camLoopF_enc rs _ [] _ hwf
  have : rs.length ≤ (camTextEnc rs).length := by
    unfold camTextEnc
    calc rs.length = (rs.map (fun r => lineOf (camTokens r))).length := by simp
    _ ≤ (rs.map (fun r => lineOf (camTokens r))).flatten.length :=
      flatten_length_ge _ (by
        intro x hx
        rcases List.mem_map.mp hx with ⟨r, _, rfl⟩
        exact lineOf_ne_nil _)
  omega

end CameraTextEnc

section BinaryPrimitives

theorem toLe_length : ∀ (k n : ℕ), (toLe k n).length = k := by
  intro k
  induction k with
  | zero => intro n; rfl
  | succ k ih => intro n; simp [toLe, ih]

theorem leVal_cons (b : ℕ) (bs : List ℕ) :
    leVal (b :: bs) = b + 256 * leVal bs := rfl

theorem leVal_toLe : ∀ (k n : ℕ), leVal (toLe k n) = n % 256 ^ k := by
  intro k
  induction k with
  | zero => intro n; simp [toLe, leVal, Nat.mod_one]
  | succ k ih =>
    intro n
    rw [show toLe (k + 1) n = n % 256 :: toLe k (n / 256) from rfl, leVal_cons,
      ih (n / 256), pow_succ, mul_comm (256 ^ k) 256, Nat.mod_mul]

theorem rdBytes_toLe (k n : ℕ) (rest : List ℕ) :
    rdBytes k (toLe k n ++ rest) = .ok (toLe k n, rest) := by
  unfold rdBytes
  rw [if_neg (by simp [toLe_length])]
  have h1 := List.take_left (toLe k n) rest
  have h2 := List.drop_left (toLe k n) rest
  rw [toLe_length] at h1 h2
  rw [h1, h2]

theorem rdU64_toLe (n : ℕ) (h : n < 2 ^ 64) (rest : List ℕ) :
    rdU64 (toLe 8 n ++ rest) = .ok (n, rest) := by
  unfold rdU64
  rw [rdBytes_toLe]
  simp only [exceptBindOk, leVal_toLe, exceptPureEq]
  rw [Nat.mod_eq_of_lt (by norm_num at h ⊢; omega)]

theorem rdU32_toLe (n : ℕ) (h : n < 2 ^ 32) (rest : List ℕ) :
    rdU32 (toLe 4 n ++ rest) = .ok (n, rest) := by
  unfold rdU32
  rw [rdBytes_toLe]
  simp only [exceptBindOk, leVal_toLe, exceptPureEq]
  rw [Nat.mod_eq_of_lt (by norm_num at h ⊢; omega)]

theorem toSigned_u32 (i : ℤ) (h1 : -2 ^ 31 ≤ i) (h2 : i < 2 ^ 31) :
    toSigned 32 (u32ofI32 i) = i := by
  unfold toSigned u32ofI32
  split_ifs <;> omega

theorem toSigned_u64 (i : ℤ) (h1 : -2 ^ 63 ≤ i) (h2 : i < 2 ^ 63) :
    toSigned 64 (u64ofI64 i) = i := by
  unfold toSigned u64ofI64
  split_ifs <;> omega

theorem rdI32_enc (i : ℤ) (h : WFi32 i) (rest : List ℕ) :
    rdI32 (toLe 4 (u32ofI32 i) ++ rest) = .ok (i, rest) := by
  obtain ⟨h1, h2⟩ := h
  have hlt : u32ofI32 i < 2 ^ 32 := by
    unfold u32ofI32
    omega
  unfold rdI32
  rw [rdU32_toLe _ hlt]
  simp only [exceptBindOk, exceptPureEq, toSigned_u32 i h1 h2]

theorem rdI64_enc (i : ℤ) (h : WFi64 i) (rest : List ℕ) :
    rdI64 (toLe 8 (u64ofI64 i) ++ rest) = .ok (i, rest) := by
  obtain ⟨h1, h2⟩ := h
  have hlt : u64ofI64 i < 2 ^ 64 := by
    unfold u64ofI64
    omega
  unfold rdI64
  rw [rdU64_toLe _ hlt]
  simp only [exceptBindOk, exceptPureEq, toSigned_u64 i h1 h2]

theorem rdF64_enc (b : ℕ) (h : b < 2 ^ 64) (rest : List ℕ) :
    rdF64 (toLe 8 b ++ rest) = .ok (f64ValOfBits b, rest) := by
  unfold rdF64
  rw [rdU64_toLe b h]
  rfl

theorem readUntil0_enc : ∀ (xs : List ℕ), 0 ∉ xs → ∀ (rest : List ℕ),
    readUntil0 (xs ++ 0 :: rest) = (xs ++ [0], rest) := by
  intro xs
  induction xs with
  | nil => intro _ rest; simp [readUntil0]
  | cons b bs ih =>
    intro h rest
    have hb : b ≠ 0 := fun hb => h (by simp [hb])
    have hbs : 0 ∉ bs := fun hm => h (List.mem_cons_of_mem _ hm)
    simp [readUntil0, hb, ih hbs rest]

end BinaryPrimitives

section CameraBinaryEnc

theorem rdF64s_enc (ps : List ℕ) (h : ∀ b ∈ ps, WFf64 b) :
    ∀ (rest : List ℕ),
    rdF64s ps.length ((ps.map (toLe 8)).flatten ++ rest) =
      .ok (ps.map f64ValOfBits, rest) := by
  induction ps with
  | nil => intro rest; rfl
  | cons b bs ih =>
    intro rest
    have hb : b < 2 ^ 64 := (h b (by simp)).1
    have hbs : ∀ x ∈ bs, WFf64 x := fun x hx => h x (by simp [hx])
    have hflat : ((b :: bs).map (toLe 8)).flatten ++ rest =
        toLe 8 b ++ ((bs.map (toLe 8)).flatten ++ rest) := by
      simp [List.flatten_cons]
    rw [show (b :: bs).length = bs.length + 1 from rfl, hflat]
    simp only [rdF64s, rdF64_enc b hb, exceptBindOk, ih hbs rest,
      exceptPureEq]
    rfl

theorem camRecB_enc (r : CameraRec) (hr : WFCamRec r) (rest : List ℕ) :
    camRecB (camBinRec r ++ rest) = .ok ((r.id, camEnt r), rest) := by
  obtain ⟨h1, h2, h3, h4, h5⟩ := hr
  have hmid : WFi32 ((modelIdN r.model : ℕ) : ℤ) := by
    cases r.model <;> exact ⟨by decide, by decide⟩
  have hmenc : u32ofI32 ((modelIdN r.model : ℕ) : ℤ) = modelIdN r.model := by
    unfold u32ofI32
    cases r.model <;> rfl
  unfold camRecB camBinRec
  rw [List.append_assoc, List.append_assoc, List.append_assoc,
    List.append_assoc, rdI32_enc r.id ⟨h1.1, h1.2⟩]
  simp only [exceptBindOk]
  rw [show toLe 4 (modelIdN r.model) = toLe 4 (u32ofI32 ((modelIdN r.model : ℕ) : ℤ))
    from by rw [hmenc], rdI32_enc _ hmid]
  simp only [exceptBindOk]
  rw [rdU64_toLe r.width h2]
  simp only [exceptBindOk]
  rw [rdU64_toLe r.height h3]
  simp only [exceptBindOk, fromId_modelIdN, exceptPureEq]
  rw [show r.model.numParams = r.params.length from h4.symm, rdF64s_enc r.params h5]
  rfl

theorem camLoopB_enc : ∀ (rs : List CameraRec) (n : ℕ) (acc : CamMap)
    (suffix : List ℕ), (∀ r ∈ rs, WFCamRec r) →
    camLoopB (rs.length + n) acc ((rs.map camBinRec).flatten ++ suffix) =
      camLoopB n (rs.foldl (fun m r => upsert m r.id (camEnt r)) acc) suffix := by
  intro rs
  induction rs with
  | nil => intro n acc suffix _; simp
  | cons r rs' ih =>
    intro n acc suffix hwf
    have hflat : ((r :: rs').map camBinRec).flatten ++ suffix =
        camBinRec r ++ ((rs'.map camBinRec).flatten ++ suffix) := by
      simp [List.flatten_cons]
    rw [hflat, show (r :: rs').length + n = (rs'.length + n) + 1 from by
      simp; omega]
    show camLoopB ((rs'.length + n) + 1) acc _ = _
    rw [show camLoopB ((rs'.length + n) + 1) acc
        (camBinRec r ++ ((rs'.map camBinRec).flatten ++ suffix)) =
      (match camRecB (camBinRec r ++ ((rs'.map camBinRec).flatten ++ suffix)) with
       | .error e => .error e
       | .ok (kv, rest) => camLoopB (rs'.length + n) (upsert acc kv.1 kv.2) rest)
      from rfl, camRecB_enc r (hwf r (by simp))]
    exact ih n _ suffix (fun x hx => hwf x (by simp [hx]))

theorem readCamerasBinary_enc (rs : List CameraRec)
    (hlen : rs.length < 2 ^ 64) (hwf : ∀ r ∈ rs, WFCamRec r) :
    readCamerasBinary (camBinEnc rs) = .ok (camMapOf rs) := by
  unfold readCamerasBinary camBinEnc camMapOf
  rw [rdU64_toLe rs.length hlen]
  simp only [exceptBindOk]
  have := camLoopB_enc rs 0 [] [] hwf
  rw [show (rs.map camBinRec).flatten ++ [] = (rs.map camBinRec).flatten from by
    simp] at this
  rw [show rs.length + 0 = rs.length from rfl] at this
  rw [this]
  rfl

end CameraBinaryEnc

section Utf8Lemmas

theorem char_valid_nat (c : Char) :
    c.toNat < 0xd800 ∨ (0xdfff < c.toNat ∧ c.toNat < 0x110000) := by
  have hv := c.valid
  simp only [UInt32.isValidChar, Nat.isValidChar] at hv
  exact hv

theorem utf8Char_nonzero (c : Char) (h0 : c.toNat ≠ 0) :
    ∀ b ∈ utf8Char c, b ≠ 0 := by
  intro b hb
  unfold utf8Char at hb
  by_cases h1 : c.toNat < 0x80
  · rw [if_pos h1] at hb
    simp at hb
    omega
  · rw [if_neg h1] at hb
    by_cases h2 : c.toNat < 0x800
    · rw [if_pos h2] at hb
      simp at hb
      rcases hb with h | h <;> omega
    · rw [if_neg h2] at hb
      by_cases h3 : c.toNat < 0x10000
      · rw [if_pos h3] at hb
        simp at hb
        rcases hb with h | h | h <;> omega
      · rw [if_neg h3] at hb
        simp at hb
        rcases hb with h | h | h | h <;> omega

theorem eat1_some_len (p : ℕ → Bool) (bs r : List ℕ)
    (h : eat1 p bs = some r) : r.length + 1 = bs.length := by
  cases bs with
  | nil => simp [eat1] at h
  | cons b t =>
    simp only [eat1] at h
    split at h
    · cases h
      simp
    · cases h

theorem vuStep_le (b1 : ℕ) (rest r : List ℕ) (h : vuStep b1 rest = some r) :
    r.length ≤ rest.length := by
  unfold vuStep at h
  split_ifs at h with h1 h2 h3 h4 h5 h6 h7 h8
  · cases h
    exact le_refl _
  · have := eat1_some_len _ _ _ h
    omega
  all_goals
    first
    | (rcases Option.bind_eq_some.mp h with ⟨m, hm, h2⟩
       first
       | (rcases Option.bind_eq_some.mp hm with ⟨m2, hm2, hm3⟩
          have e1 := eat1_some_len _ _ _ hm2
          have e2 := eat1_some_len _ _ _ hm3
          have e3 := eat1_some_len _ _ _ h2
          omega)
       | (have e1 := eat1_some_len _ _ _ hm
          have e2 := eat1_some_len _ _ _ h2
          omega))

theorem vuGo_ge : ∀ (f : ℕ) (bs : List ℕ), bs.length ≤ f →
    vuGo f bs = validUtf8 bs := by
  intro f
  induction f using Nat.strong_induction_on with
  | _ f ih =>
    intro bs hle
    cases bs with
    | nil => cases f <;> rfl
    | cons b1 rest =>
      cases f with
      | zero => simp at hle
      | succ f =>
        show vuGo (f + 1) (b1 :: rest) = vuGo (rest.length + 1) (b1 :: rest)
        simp only [vuGo]
        cases hstep : vuStep b1 rest with
        | none => rfl
        | some r =>
          have hr : r.length ≤ rest.length := vuStep_le _ _ _ hstep
          simp only [List.length_cons] at hle
          show vuGo f r = vuGo rest.length r
          rw [ih f (by omega) r (by omega),
            ih rest.length (by omega) r (by omega)]

theorem validUtf8_utf8Char (c : Char) (bs : List ℕ) :
    validUtf8 (utf8Char c ++ bs) = validUtf8 bs := by
  have hv := char_valid_nat c
  set n := c.toNat with hn
  by_cases h1 : n < 0x80
  · rw [show utf8Char c = [n] from by unfold utf8Char; rw [← hn, if_pos h1]]
    show validUtf8 (n :: bs) = validUtf8 bs
    unfold validUtf8
    simp only [List.length_cons, vuGo]
    rw [show vuStep n bs = some bs from by unfold vuStep; rw [if_pos (by omega)]]
  · by_cases h2 : n < 0x800
    · rw [show utf8Char c = [0xC0 + n / 64, 0x80 + n % 64] from by
        unfold utf8Char; rw [← hn, if_neg h1, if_pos h2]]
      show validUtf8 ((0xC0 + n / 64) :: (0x80 + n % 64) :: bs) = validUtf8 bs
      have hcont : contB (0x80 + n % 64) = true := by
        simp only [contB, Bool.and_eq_true, decide_eq_true_eq]
        omega
      unfold validUtf8
      simp only [List.length_cons, vuGo]
      rw [show vuStep (0xC0 + n / 64) ((0x80 + n % 64) :: bs) = some bs from by
        unfold vuStep
        rw [if_neg (by omega), if_pos (by omega : 0xC2 ≤ 0xC0 + n / 64 ∧
          0xC0 + n / 64 ≤ 0xDF)]
        simp [eat1, hcont]]
      exact vuGo_ge _ _ (by omega)
    · by_cases h3 : n < 0x10000
      · rw [show utf8Char c = [0xE0 + n / 4096, 0x80 + n / 64 % 64,
            0x80 + n % 64] from by
          unfold utf8Char; rw [← hn, if_neg h1, if_neg h2, if_pos h3]]
        show validUtf8 ((0xE0 + n / 4096) :: (0x80 + n / 64 % 64) ::
          (0x80 + n % 64) :: bs) = validUtf8 bs
        have hcont3 : contB (0x80 + n % 64) = true := by
          simp only [contB, Bool.and_eq_true, decide_eq_true_eq]
          omega
        have hq : n / 4096 ≤ 15 := by omega
        have hstep : vuStep (0xE0 + n / 4096)
            ((0x80 + n / 64 % 64) :: (0x80 + n % 64) :: bs) = some bs := by
          unfold vuStep
          rw [if_neg (by omega)]
          rw [if_neg (by omega : ¬(0xC2 ≤ 0xE0 + n / 4096 ∧
            0xE0 + n / 4096 ≤ 0xDF))]
          by_cases hq0 : n / 4096 = 0
          · rw [if_pos (by omega)]
            have hlo : 32 ≤ n / 64 := by omega
            have hhi : n / 64 < 64 := by omega
            have hmeq : n / 64 % 64 = n / 64 := Nat.mod_eq_of_lt hhi
            have hb2a : 0xA0 ≤ 0x80 + n / 64 % 64 := by omega
            have hb2b : 0x80 + n / 64 % 64 ≤ 0xBF := by omega
            simp [eat1, hcont3, hb2a, hb2b]
          · rw [if_neg (by omega)]
            by_cases hqed : n / 4096 = 13
            · rw [if_neg (by omega), if_pos (by omega)]
              have hns : n < 0xd800 := by
                rcases hv with h | h
                · exact h
                · omega
              have h64 : n / 64 % 64 = n / 64 - 832 := by omega
              have hb2a : 0x80 ≤ 0x80 + n / 64 % 64 := by omega
              have hb2b : 0x80 + n / 64 % 64 ≤ 0x9F := by omega
              simp [eat1, hcont3, hb2a, hb2b]
            · rw [if_pos (by omega :
                (0xE1 ≤ 0xE0 + n / 4096 ∧ 0xE0 + n / 4096 ≤ 0xEC) ∨
                (0xEE ≤ 0xE0 + n / 4096 ∧ 0xE0 + n / 4096 ≤ 0xEF))]
              have hb2 : contB (0x80 + n / 64 % 64) = true := by
                simp only [contB, Bool.and_eq_true, decide_eq_true_eq]
                have : n / 64 % 64 < 64 := Nat.mod_lt _ (by norm_num)
                omega
              simp [eat1, hcont3, hb2]
        unfold validUtf8
        simp only [List.length_cons, vuGo]
        rw [hstep]
        exact vuGo_ge _ _ (by omega)
      · rw [show utf8Char c = [0xF0 + n / 262144, 0x80 + n / 4096 % 64,
            0x80 + n / 64 % 64, 0x80 + n % 64] from by
          unfold utf8Char; rw [← hn, if_neg h1, if_neg h2, if_neg h3]]
        show validUtf8 ((0xF0 + n / 262144) :: (0x80 + n / 4096 % 64) ::
          (0x80 + n / 64 % 64) :: (0x80 + n % 64) :: bs) = validUtf8 bs
        have hn17 : n < 0x110000 := by
          rcases hv with h | h
          · omega
          · exact h.2
        have hq : n / 262144 ≤ 4 := by omega
        have hcont3 : contB (0x80 + n / 64 % 64) = true := by
          simp only [contB, Bool.and_eq_true, decide_eq_true_eq]
          have : n / 64 % 64 < 64 := Nat.mod_lt _ (by norm_num)
          omega
        have hcont4 : contB (0x80 + n % 64) = true := by
          simp only [contB, Bool.and_eq_true, decide_eq_true_eq]
          omega
        have hstep : vuStep (0xF0 + n / 262144)
            ((0x80 + n / 4096 % 64) :: (0x80 + n / 64 % 64) ::
             (0x80 + n % 64) :: bs) = some bs := by
          unfold vuStep
          rw [if_neg (by omega)]
          rw [if_neg (by omega : ¬(0xC2 ≤ 0xF0 + n / 262144 ∧
            0xF0 + n / 262144 ≤ 0xDF))]
          rw [if_neg (by omega), if_neg (by omega :
            ¬((0xE1 ≤ 0xF0 + n / 262144 ∧ 0xF0 + n / 262144 ≤ 0xEC) ∨
              (0xEE ≤ 0xF0 + n / 262144 ∧ 0xF0 + n / 262144 ≤ 0xEF))),
            if_neg (by omega)]
          by_cases hf0 : n / 262144 = 0
          · rw [if_pos (by omega)]
            have hlo : 16 ≤ n / 4096 := by omega
            have hhi : n / 4096 < 64 := by omega
            have hmeq : n / 4096 % 64 = n / 4096 := Nat.mod_eq_of_lt hhi
            have hb2a : 0x90 ≤ 0x80 + n / 4096 % 64 := by omega
            have hb2b : 0x80 + n / 4096 % 64 ≤ 0xBF := by omega
            simp [eat1, hcont3, hcont4, hb2a, hb2b]
          · rw [if_neg (by omega)]
            by_cases hf4 : n / 262144 = 4
            · rw [if_neg (by omega), if_pos (by omega)]
              have hlo : 256 ≤ n / 4096 := by omega
              have hhi : n / 4096 < 272 := by omega
              have hmeq : n / 4096 % 64 = n / 4096 - 256 := by omega
              have hb2a : 0x80 ≤ 0x80 + n / 4096 % 64 := by omega
              have hb2b : 0x80 + n / 4096 % 64 ≤ 0x8F := by omega
              simp [eat1, hcont3, hcont4, hb2a, hb2b]
            · rw [if_pos (by omega : 0xF1 ≤ 0xF0 + n / 262144 ∧
                0xF0 + n / 262144 ≤ 0xF3)]
              have hb2 : contB (0x80 + n / 4096 % 64) = true := by
                simp only [contB, Bool.and_eq_true, decide_eq_true_eq]
                have : n / 4096 % 64 < 64 := Nat.mod_lt _ (by norm_num)
                omega
              simp [eat1, hcont3, hcont4, hb2]
        unfold validUtf8
        simp only [List.length_cons, vuGo]
        rw [hstep]
        exact vuGo_ge _ _ (by omega)

theorem utf8Bytes_cons (c : Char) (cs : List Char) :
    utf8Bytes (c :: cs) = utf8Char c ++ utf8Bytes cs := by
  simp [utf8Bytes]

theorem validUtf8_append_utf8Bytes : ∀ (cs : List Char) (bs : List ℕ),
    validUtf8 (utf8Bytes cs ++ bs) = validUtf8 bs := by
  intro cs
  induction cs with
  | nil => intro bs; rfl
  | cons c cs' ih =>
    intro bs
    rw [utf8Bytes_cons, List.append_assoc, validUtf8_utf8Char, ih]

theorem validUtf8_utf8Bytes (cs : List Char) :
    validUtf8 (utf8Bytes cs) = true := by
  have := validUtf8_append_utf8Bytes cs []
  simpa using this

theorem utf8Bytes_nonzero (cs : List Char) (h : ∀ c ∈ cs, c.toNat ≠ 0) :
    0 ∉ utf8Bytes cs := by
  intro hm
  unfold utf8Bytes at hm
  rcases List.mem_flatten.mp hm with ⟨l, hl, h0⟩
  rcases List.mem_map.mp hl with ⟨c, hc, rfl⟩
  exact utf8Char_nonzero c (h c hc) 0 h0 rfl

end Utf8Lemmas

section ImageTextEnc

theorem imgTokensA_good (r : ImageRec) (hn : WFname r.name) :
    ∀ t ∈ imgTokensA r, goodTok t := by
  intro t ht
  simp only [imgTokensA, List.mem_cons, List.not_mem_nil, or_false] at ht
  rcases ht with rfl | rfl | rfl | rfl | rfl | rfl | rfl | rfl | rfl | rfl
  · exact goodTok_intTok r.id
  · exact goodTok_f64Tok r.qw
  · exact goodTok_f64Tok r.qx
  · exact goodTok_f64Tok r.qy
  · exact goodTok_f64Tok r.qz
  · exact goodTok_f64Tok r.tx
  · exact goodTok_f64Tok r.ty
  · exact goodTok_f64Tok r.tz
  · exact goodTok_intTok r.camId
  · exact ⟨hn.1, hn.2.1⟩

theorem imgTokensB_good (r : ImageRec) : ∀ t ∈ imgTokensB r, goodTok t := by
  intro t ht
  rcases List.mem_flatten.mp ht with ⟨l, hl, htl⟩
  rcases List.mem_map.mp hl with ⟨o, _, rfl⟩
  simp only [List.mem_cons, List.not_mem_nil, or_false] at htl
  rcases htl with rfl | rfl | rfl
  · exact goodTok_f64Tok o.x
  · exact goodTok_f64Tok o.y
  · exact goodTok_intTok o.pid

theorem obsLoop_enc : ∀ (os : List ObsRec), (∀ o ∈ os, WFObsRec o) →
    obsLoop ((os.map (fun o => [f64Tok o.x, f64Tok o.y, intTok o.pid])).flatten) =
      .ok (os.map (fun o => (⟨n32 o.x, n32 o.y⟩ : Vec2)),
        os.map (fun o => o.pid)) := by
  intro os
  induction os with
  | nil => intro _; rfl
  | cons o os' ih =>
    intro h
    obtain ⟨hx, hy, hp⟩ := h o (by simp)
    have hrest := ih (fun x hx => h x (by simp [hx]))
    simp only [List.map_cons, List.flatten_cons, List.cons_append,
      List.nil_append]
    simp only [obsLoop, pF32_f64Tok _ hx, pF32_f64Tok _ hy, pI64_intTok _ hp,
      exceptBindOk, hrest, exceptPureEq, n32]

theorem imgLineA_enc (r : ImageRec) (hr : WFImgRec r) :
    imgLineA (imgTokensA r) = .ok (r.id,
      (⟨n32 r.qx, n32 r.qy, n32 r.qz, n32 r.qw⟩ : Quat),
      (⟨n32 r.tx, n32 r.ty, n32 r.tz⟩ : Vec3), r.camId, utf8Bytes r.name) := by
  obtain ⟨h1, hqw, hqx, hqy, hqz, htx, hty, htz, hcam, _, _, _⟩ := hr
  have e0 : idx (imgTokensA r) 0 = .ok (intTok r.id) := rfl
  have e1 : idx (imgTokensA r) 1 = .ok (f64Tok r.qw) := rfl
  have e2 : idx (imgTokensA r) 2 = .ok (f64Tok r.qx) := rfl
  have e3 : idx (imgTokensA r) 3 = .ok (f64Tok r.qy) := rfl
  have e4 : idx (imgTokensA r) 4 = .ok (f64Tok r.qz) := rfl
  have e5 : idx (imgTokensA r) 5 = .ok (f64Tok r.tx) := rfl
  have e6 : idx (imgTokensA r) 6 = .ok (f64Tok r.ty) := rfl
  have e7 : idx (imgTokensA r) 7 = .ok (f64Tok r.tz) := rfl
  have e8 : idx (imgTokensA r) 8 = .ok (intTok r.camId) := rfl
  have e9 : idx (imgTokensA r) 9 = .ok r.name := rfl
  simp only [imgLineA, e0, e1, e2, e3, e4, e5, e6, e7, e8, e9, exceptBindOk,
    pI32_intTok _ h1, pF32_f64Tok _ hqw, pF32_f64Tok _ hqx, pF32_f64Tok _ hqy,
    pF32_f64Tok _ hqz, pF32_f64Tok _ htx, pF32_f64Tok _ hty,
    pF32_f64Tok _ htz, pI32_intTok _ hcam, exceptPureEq, n32]

theorem imgLoopF_cons (f : ℕ) (acc : ImgMap) (c : Char) (cs : List Char) :
    imgLoopF (f + 1) acc (c :: cs) =
      (let p := splitLine (c :: cs)
       if !p.1.isEmpty && !startsHash p.1 then
         match imgLineA (splitWS p.1) with
         | .error e => .error e
         | .ok (id, quat, tvec, cameraId, name) =>
           let pb := splitLine p.2
           match obsLoop (splitWS pb.1) with
           | .error e => .error e
           | .ok (xys, pids) =>
             imgLoopF f (upsert acc id ⟨tvec, quat, cameraId, name, xys, pids⟩)
               pb.2
       else imgLoopF f acc p.2) := rfl

theorem imgLoopF_nil (f : ℕ) (acc : ImgMap) : imgLoopF f acc [] = .ok acc := by
  cases f <;> rfl

theorem imgLoopF_step (r : ImageRec) (hr : WFImgRec r) (rest : List Char)
    (f : ℕ) (acc : ImgMap) :
    imgLoopF (f + 1) acc
      (lineOf (imgTokensA r) ++ (lineOf (imgTokensB r) ++ rest)) =
      imgLoopF f (upsert acc r.id (imgEnt r)) rest := by
  have hA := imgLineA_enc r hr
  obtain ⟨h1, hqw, hqx, hqy, hqz, htx, hty, htz, hcam, hname, hol, hobs⟩ := hr
  have hgoodA := imgTokensA_good r hname
  have hgoodB := imgTokensB_good r
  have hB := obsLoop_enc r.obs hobs
  obtain ⟨c₀, t', hhead, hc₀⟩ := intTok_head r.id
  have hstart : startsHash (lineOf (imgTokensA r)) = false := by
    rw [show imgTokensA r = intTok r.id :: [f64Tok r.qw, f64Tok r.qx,
      f64Tok r.qy, f64Tok r.qz, f64Tok r.tx, f64Tok r.ty, f64Tok r.tz,
      intTok r.camId, r.name] from rfl, hhead]
    exact startsHash_lineOf c₀ t' _ hc₀
  have hne : (lineOf (imgTokensA r)).isEmpty = false := by
    cases h : lineOf (imgTokensA r) with
    | nil => exact absurd h (lineOf_ne_nil _)
    | cons a l => rfl
  obtain ⟨c, cs, hcons⟩ : ∃ c cs,
      lineOf (imgTokensA r) ++ (lineOf (imgTokensB r) ++ rest) = c :: cs := by
    cases h : lineOf (imgTokensA r) ++ (lineOf (imgTokensB r) ++ rest) with
    | nil =>
      rcases List.append_eq_nil.mp h with ⟨h1, _⟩
      exact absurd h1 (lineOf_ne_nil _)
    | cons c cs => exact ⟨c, cs, rfl⟩
  rw [hcons, imgLoopF_cons, ← hcons, splitLine_lineOf _ _ hgoodA]
  simp only [hne, hstart, Bool.not_false, Bool.and_self, if_true,
    splitWS_lineOf _ hgoodA, hA, splitLine_lineOf _ _ hgoodB,
    splitWS_lineOf _ hgoodB]
  simp only [imgTokensB, hB, imgEnt]

theorem imgTextEnc_cons (r : ImageRec) (rs : List ImageRec) :
    imgTextEnc (r :: rs) =
      lineOf (imgTokensA r) ++ (lineOf (imgTokensB r) ++ imgTextEnc rs) := by
  simp [imgTextEnc]

theorem imgLoopF_enc : ∀ (rs : List ImageRec) (f : ℕ) (acc : ImgMap),
    rs.length < f → (∀ r ∈ rs, WFImgRec r) →
    imgLoopF f acc (imgTextEnc rs) =
      .ok (rs.foldl (fun m r => upsert m r.id (imgEnt r)) acc) := by
  intro rs
  induction rs with
  | nil =>
    intro f acc _ _
    rw [show imgTextEnc [] = [] from rfl, imgLoopF_nil]
    rfl
  | cons r rs' ih =>
    intro f acc hlen hwf
    obtain ⟨f', rfl⟩ : ∃ f', f = f' + 1 := ⟨f - 1, by omega⟩
    rw [imgTextEnc_cons, imgLoopF_step r (hwf r (by simp)) _ _ _,
      ih f' _ (by simp at hlen; omega) (fun x hx => hwf x (by simp [hx]))]
    rfl

theorem readImagesText_enc (rs : List ImageRec)
    (hwf : ∀ r ∈ rs, WFImgRec r) :
    readImagesText (imgTextEnc rs) = .ok (imgMapOf rs) := by
  unfold readImagesText imgMapOf
  apply imgLoopF_enc rs _ [] _ hwf
  have : rs.length ≤ (imgTextEnc rs).length := by
    unfold imgTextEnc
    calc rs.length
        = (rs.map (fun r => lineOf (imgTokensA r) ++ lineOf (imgTokensB r))).length := by
          simp
      _ ≤ (rs.map (fun r => lineOf (imgTokensA r) ++
            lineOf (imgTokensB r))).flatten.length :=
          flatten_length_ge _ (by
            intro x hx
            rcases List.mem_map.mp hx with ⟨r, _, rfl⟩
            intro hnil
            rcases List.append_eq_nil.mp hnil with ⟨h1, _⟩
            exact lineOf_ne_nil _ h1)
  omega

end ImageTextEnc

section ImageBinaryEnc

theorem obsLoopB_enc : ∀ (os : List ObsRec), (∀ o ∈ os, WFObsRec o) →
    ∀ (rest : List ℕ),
    obsLoopB os.length
      ((os.map (fun o => toLe 8 o.x ++ (toLe 8 o.y ++
        toLe 8 (u64ofI64 o.pid)))).flatten ++ rest) =
      .ok ((os.map (fun o => (⟨n32 o.x, n32 o.y⟩ : Vec2)),
        os.map (fun o => o.pid)), rest) := by
  intro os
  induction os with
  | nil => intro _ rest; rfl
  | cons o os' ih =>
    intro h rest
    obtain ⟨hx, hy, hp⟩ := h o (by simp)
    have hrest := ih (fun x hx => h x (by simp [hx])) rest
    have hflat : ((o :: os').map (fun o => toLe 8 o.x ++ (toLe 8 o.y ++
        toLe 8 (u64ofI64 o.pid)))).flatten ++ rest =
        toLe 8 o.x ++ (toLe 8 o.y ++ (toLe 8 (u64ofI64 o.pid) ++
          ((os'.map (fun o => toLe 8 o.x ++ (toLe 8 o.y ++
            toLe 8 (u64ofI64 o.pid)))).flatten ++ rest))) := by
      simp [List.flatten_cons]
    rw [show (o :: os').length = os'.length + 1 from rfl, hflat]
    simp only [obsLoopB, rdF64_enc o.x hx.1, exceptBindOk,
      rdF64_enc o.y hy.1, rdI64_enc o.pid hp, hrest, exceptPureEq,
      List.map_cons, n32]

theorem imgRecB_enc (r : ImageRec) (hr : WFImgRec r) (rest : List ℕ) :
    imgRecB (imgBinRec r ++ rest) = .ok ((r.id, imgEnt r), rest) := by
  obtain ⟨h1, hqw, hqx, hqy, hqz, htx, hty, htz, hcam, hname, hol, hobs⟩ := hr
  have h0 : 0 ∉ utf8Bytes r.name := utf8Bytes_nonzero r.name hname.2.2
  unfold imgRecB imgBinRec
  simp only [List.append_assoc, List.cons_append, List.nil_append,
    List.singleton_append]
  rw [rdI32_enc r.id h1]
  simp only [exceptBindOk]
  rw [rdF64_enc r.qw hqw.1]
  simp only [exceptBindOk]
  rw [rdF64_enc r.qx hqx.1]
  simp only [exceptBindOk]
  rw [rdF64_enc r.qy hqy.1]
  simp only [exceptBindOk]
  rw [rdF64_enc r.qz hqz.1]
  simp only [exceptBindOk]
  rw [rdF64_enc r.tx htx.1]
  simp only [exceptBindOk]
  rw [rdF64_enc r.ty hty.1]
  simp only [exceptBindOk]
  rw [rdF64_enc r.tz htz.1]
  simp only [exceptBindOk]
  rw [rdI32_enc r.camId hcam]
  simp only [exceptBindOk]
  rw [readUntil0_enc (utf8Bytes r.name) h0]
  have hne : (utf8Bytes r.name ++ [0]).isEmpty = false := by
    cases h : utf8Bytes r.name ++ [0] with
    | nil =>
      rcases List.append_eq_nil.mp h with ⟨_, h2⟩
      cases h2
    | cons a l => rfl
  have hdrop : (utf8Bytes r.name ++ [0]).dropLast = utf8Bytes r.name := by
    simp
  simp only [hne, Bool.false_eq_true, if_false, hdrop,
    validUtf8_utf8Bytes, if_true]
  rw [rdU64_toLe r.obs.length hol]
  simp only [exceptBindOk]
  rw [obsLoopB_enc r.obs hobs rest]
  simp only [exceptBindOk, exceptPureEq, imgEnt, n32]

theorem imgLoopB_succ (n : ℕ) (acc : ImgMap) (bs : List ℕ) :
    imgLoopB (n + 1) acc bs =
      (match imgRecB bs with
       | .error e => .error e
       | .ok (kv, rest) => imgLoopB n (upsert acc kv.1 kv.2) rest) := rfl

theorem imgLoopB_enc : ∀ (rs : List ImageRec) (n : ℕ) (acc : ImgMap)
    (suffix : List ℕ), (∀ r ∈ rs, WFImgRec r) →
    imgLoopB (rs.length + n) acc ((rs.map imgBinRec).flatten ++ suffix) =
      imgLoopB n (rs.foldl (fun m r => upsert m r.id (imgEnt r)) acc)
        suffix := by
  intro rs
  induction rs with
  | nil => intro n acc suffix _; simp
  | cons r rs' ih =>
    intro n acc suffix hwf
    have hflat : ((r :: rs').map imgBinRec).flatten ++ suffix =
        imgBinRec r ++ ((rs'.map imgBinRec).flatten ++ suffix) := by
      simp [List.flatten_cons]
    rw [hflat, show (r :: rs').length + n = (rs'.length + n) + 1 from by
      simp; omega]
    show imgLoopB ((rs'.length + n) + 1) acc _ = _
    rw [imgLoopB_succ, imgRecB_enc r (hwf r (by simp))]
    exact ih n _ suffix (fun x hx => hwf x (by simp [hx]))

theorem readImagesBinary_enc (rs : List ImageRec)
    (hlen : rs.length < 2 ^ 64) (hwf : ∀ r ∈ rs, WFImgRec r) :
    readImagesBinary (imgBinEnc rs) = .ok (imgMapOf rs) := by
  unfold readImagesBinary imgBinEnc imgMapOf
  rw [rdU64_toLe rs.length hlen]
  simp only [exceptBindOk]
  have := imgLoopB_enc rs 0 [] [] hwf
  rw [show (rs.map imgBinRec).flatten ++ [] = (rs.map imgBinRec).flatten from by
    simp] at this
  rw [show rs.length + 0 = rs.length from rfl] at this
  rw [this]
  rfl

end ImageBinaryEnc

section PointTextEnc

theorem trkLoop_enc : ∀ (ts : List (ℤ × ℤ)),
    (∀ t ∈ ts, WFi32 t.1 ∧ WFi32 t.2) →
    trkLoop ((ts.map (fun t => [intTok t.1, intTok t.2])).flatten) =
      .ok (ts.map (fun t => t.1), ts.map (fun t => t.2)) := by
  intro ts
  induction ts with
  | nil => intro _; rfl
  | cons t ts' ih =>
    intro h
    obtain ⟨h1, h2⟩ := h t (by simp)
    have hrest := ih (fun x hx => h x (by simp [hx]))
    simp only [List.map_cons, List.flatten_cons, List.cons_append,
      List.nil_append]
    simp only [trkLoop, pI32_intTok _ h1, pI32_intTok _ h2, exceptBindOk,
      hrest, exceptPureEq]

theorem ptRecParse_enc (r : PointRec) (hr : WFPtRec r) :
    ptRecParse (ptTokens r) = .ok (r.id, ptEnt r) := by
  obtain ⟨h1, hx, hy, hz, hcr, hcg, hcb, herr, hlen, htrk⟩ := hr
  have htl := trkLoop_enc r.track htrk
  simp only [ptTokens, List.cons_append, List.nil_append]
  simp only [ptRecParse, pI64_intTok _ h1, pF32_f64Tok _ hx,
    pF32_f64Tok _ hy, pF32_f64Tok _ hz, pU8_natTok _ hcr, pU8_natTok _ hcg,
    pU8_natTok _ hcb, pF64_f64Tok _ herr, htl, exceptBindOk, exceptPureEq,
    ptEnt, n32]

theorem ptTokens_good (r : PointRec) : ∀ t ∈ ptTokens r, goodTok t := by
  intro t ht
  simp only [ptTokens, List.mem_append, List.mem_cons, List.not_mem_nil,
    or_false] at ht
  rcases ht with (rfl | rfl | rfl | rfl | rfl | rfl | rfl | rfl) | h
  · exact goodTok_intTok r.id
  · exact goodTok_f64Tok r.x
  · exact goodTok_f64Tok r.y
  · exact goodTok_f64Tok r.z
  · exact goodTok_natTok r.cr
  · exact goodTok_natTok r.cg
  · exact goodTok_natTok r.cb
  · exact goodTok_f64Tok r.err
  · rcases List.mem_flatten.mp h with ⟨l, hl, htl⟩
    rcases List.mem_map.mp hl with ⟨q, _, rfl⟩
    simp only [List.mem_cons, List.not_mem_nil, or_false] at htl
    rcases htl with rfl | rfl
    · exact goodTok_intTok q.1
    · exact goodTok_intTok q.2

theorem ptLoopF_cons (f : ℕ) (acc : PtMap) (c : Char) (cs : List Char) :
    ptLoopF (f + 1) acc (c :: cs) =
      (let p := splitLine (c :: cs)
       if startsHash p.1 then ptLoopF f acc p.2
       else
         match ptRecParse (splitWS p.1) with
         | .error e => .error e
         | .ok (id, pt) => ptLoopF f (upsert acc id pt) p.2) := rfl

theorem ptLoopF_nil (f : ℕ) (acc : PtMap) : ptLoopF f acc [] = .ok acc := by
  cases f <;> rfl

theorem ptLoopF_step (r : PointRec) (hr : WFPtRec r) (rest : List Char)
    (f : ℕ) (acc : PtMap) :
    ptLoopF (f + 1) acc (lineOf (ptTokens r) ++ rest) =
      ptLoopF f (upsert acc r.id (ptEnt r)) rest := by
  have hgood := ptTokens_good r
  obtain ⟨c₀, t', hhead, hc₀⟩ := intTok_head r.id
  have hstart : startsHash (lineOf (ptTokens r)) = false := by
    have htok : ptTokens r = intTok r.id :: ([f64Tok r.x, f64Tok r.y,
        f64Tok r.z, natTok r.cr, natTok r.cg, natTok r.cb, f64Tok r.err] ++
        (r.track.map (fun t => [intTok t.1, intTok t.2])).flatten) := rfl
    rw [htok, hhead]
    exact startsHash_lineOf c₀ t' _ hc₀
  obtain ⟨c, cs, hcons⟩ : ∃ c cs, lineOf (ptTokens r) ++ rest = c :: cs := by
    cases h : lineOf (ptTokens r) ++ rest with
    | nil =>
      rcases List.append_eq_nil.mp h with ⟨h1, _⟩
      exact absurd h1 (lineOf_ne_nil _)
    | cons c cs => exact ⟨c, cs, rfl⟩
  rw [hcons, ptLoopF_cons, ← hcons, splitLine_lineOf _ _ hgood]
  simp only [hstart, if_false, Bool.false_eq_true, splitWS_lineOf _ hgood,
    ptRecParse_enc r hr]

theorem ptLoopF_enc : ∀ (rs : List PointRec) (f : ℕ) (acc : PtMap),
    rs.length < f → (∀ r ∈ rs, WFPtRec r) →
    ptLoopF f acc (ptTextEnc rs) =
      .ok (rs.foldl (fun m r => upsert m r.id (ptEnt r)) acc) := by
  intro rs
  induction rs with
  | nil =>
    intro f acc _ _
    rw [show ptTextEnc [] = [] from rfl, ptLoopF_nil]
    rfl
  | cons r rs' ih =>
    intro f acc hlen hwf
    obtain ⟨f', rfl⟩ : ∃ f', f = f' + 1 := ⟨f - 1, by omega⟩
    have henc : ptTextEnc (r :: rs') =
        lineOf (ptTokens r) ++ ptTextEnc rs' := by
      simp [ptTextEnc]
    rw [henc, ptLoopF_step r (hwf r (by simp)) _ _ _,
      ih f' _ (by simp at hlen; omega) (fun x hx => hwf x (by simp [hx]))]
    rfl

theorem readPoints3dText_enc (rs : List PointRec)
    (hwf : ∀ r ∈ rs, WFPtRec r) :
    readPoints3dText (ptTextEnc rs) = .ok (ptMapOf rs) := by
  unfold readPoints3dText ptMapOf
  apply ptLoopF_enc rs _ [] _ hwf
  have : rs.length ≤ (ptTextEnc rs).length := by
    unfold ptTextEnc
    calc rs.length = (rs.map (fun r => lineOf (ptTokens r))).length := by simp
    _ ≤ (rs.map (fun r => lineOf (ptTokens r))).flatten.length :=
      flatten_length_ge _ (by
        intro x hx
        rcases List.mem_map.mp hx with ⟨r, _, rfl⟩
        exact lineOf_ne_nil _)
  omega

end PointTextEnc

section PointBinaryEnc

theorem trkLoopB_enc : ∀ (ts : List (ℤ × ℤ)),
    (∀ t ∈ ts, WFi32 t.1 ∧ WFi32 t.2) → ∀ (rest : List ℕ),
    trkLoopB ts.length
      ((ts.map (fun t => toLe 4 (u32ofI32 t.1) ++
        toLe 4 (u32ofI32 t.2))).flatten ++ rest) =
      .ok ((ts.map (fun t => t.1), ts.map (fun t => t.2)), rest) := by
  intro ts
  induction ts with
  | nil => intro _ rest; rfl
  | cons t ts' ih =>
    intro h rest
    obtain ⟨h1, h2⟩ := h t (by simp)
    have hrest := ih (fun x hx => h x (by simp [hx])) rest
    have hflat : ((t :: ts').map (fun t => toLe 4 (u32ofI32 t.1) ++
        toLe 4 (u32ofI32 t.2))).flatten ++ rest =
        toLe 4 (u32ofI32 t.1) ++ (toLe 4 (u32ofI32 t.2) ++
          ((ts'.map (fun t => toLe 4 (u32ofI32 t.1) ++
            toLe 4 (u32ofI32 t.2))).flatten ++ rest)) := by
      simp [List.flatten_cons]
    rw [show (t :: ts').length = ts'.length + 1 from rfl, hflat]
    simp only [trkLoopB, rdI32_enc t.1 h1, exceptBindOk, rdI32_enc t.2 h2,
      hrest, exceptPureEq, List.map_cons]

theorem ptRecB_enc (r : PointRec) (hr : WFPtRec r) (rest : List ℕ) :
    ptRecB (ptBinRec r ++ rest) = .ok ((r.id, ptEnt r), rest) := by
  obtain ⟨h1, hx, hy, hz, hcr, hcg, hcb, herr, hlen, htrk⟩ := hr
  unfold ptRecB ptBinRec
  simp only [List.append_assoc, List.cons_append, List.nil_append]
  rw [rdI64_enc r.id h1]
  simp only [exceptBindOk]
  rw [rdF64_enc r.x hx.1]
  simp only [exceptBindOk]
  rw [rdF64_enc r.y hy.1]
  simp only [exceptBindOk]
  rw [rdF64_enc r.z hz.1]
  simp only [exceptBindOk, rdU8]
  rw [rdF64_enc r.err herr.1]
  simp only [exceptBindOk]
  rw [rdU64_toLe r.track.length hlen]
  simp only [exceptBindOk]
  rw [trkLoopB_enc r.track htrk rest]
  simp only [exceptBindOk, exceptPureEq, ptEnt, n32]

theorem ptLoopB_succ (n : ℕ) (acc : PtMap) (bs : List ℕ) :
    ptLoopB (n + 1) acc bs =
      (match ptRecB bs with
       | .error e => .error e
       | .ok (kv, rest) => ptLoopB n (upsert acc kv.1 kv.2) rest) := rfl

theorem ptLoopB_enc : ∀ (rs : List PointRec) (n : ℕ) (acc : PtMap)
    (suffix : List ℕ), (∀ r ∈ rs, WFPtRec r) →
    ptLoopB (rs.length + n) acc ((rs.map ptBinRec).flatten ++ suffix) =
      ptLoopB n (rs.foldl (fun m r => upsert m r.id (ptEnt r)) acc)
        suffix := by
  intro rs
  induction rs with
  | nil => intro n acc suffix _; simp
  | cons r rs' ih =>
    intro n acc suffix hwf
    have hflat : ((r :: rs').map ptBinRec).flatten ++ suffix =
        ptBinRec r ++ ((rs'.map ptBinRec).flatten ++ suffix) := by
      simp [List.flatten_cons]
    rw [hflat, show (r :: rs').length + n = (rs'.length + n) + 1 from by
      simp; omega]
    show ptLoopB ((rs'.length + n) + 1) acc _ = _
    rw [ptLoopB_succ, ptRecB_enc r (hwf r (by simp))]
    exact ih n _ suffix (fun x hx => hwf x (by simp [hx]))

theorem readPoints3dBinary_enc (rs : List PointRec)
    (hlen : rs.length < 2 ^ 64) (hwf : ∀ r ∈ rs, WFPtRec r) :
    readPoints3dBinary (ptBinEnc rs) = .ok (ptMapOf rs) := by
  unfold readPoints3dBinary ptBinEnc ptMapOf
  rw [rdU64_toLe rs.length hlen]
  simp only [exceptBindOk]
  have := ptLoopB_enc rs 0 [] [] hwf
  rw [show (rs.map ptBinRec).flatten ++ [] = (rs.map ptBinRec).flatten from by
    simp] at this
  rw [show rs.length + 0 = rs.length from rfl] at this
  rw [this]
  rfl

end PointBinaryEnc

/-!
## Claim theorems
-/

/-- Claim C1: dual-encoding parity.  For every logical reconstruction
(well-formed camera, image and point records) the text encoding and the
binary encoding parse, via the corresponding reader for each of the three
artifacts, to literally identical mappings, and both succeed with the
entity-for-entity mapping of the records (floating-point fields narrowed
to single precision agree exactly, both modes computing the same
`narrow` of the same double value). -/
theorem claim_C1 (cs : List CameraRec) (is : List ImageRec)
    (ps : List PointRec)
    (hc : ∀ r ∈ cs, WFCamRec r) (hcl : cs.length < 2 ^ 64)
    (hi : ∀ r ∈ is, WFImgRec r) (hil : is.length < 2 ^ 64)
    (hp : ∀ r ∈ ps, WFPtRec r) (hpl : ps.length < 2 ^ 64) :
    readCamerasText (camTextEnc cs) = readCamerasBinary (camBinEnc cs) ∧
    readImagesText (imgTextEnc is) = readImagesBinary (imgBinEnc is) ∧
    readPoints3dText (ptTextEnc ps) = readPoints3dBinary (ptBinEnc ps) ∧
    readCamerasText (camTextEnc cs) = .ok (camMapOf cs) ∧
    readImagesText (imgTextEnc is) = .ok (imgMapOf is) ∧
    readPoints3dText (ptTextEnc ps) = .ok (ptMapOf ps) := by
  refine ⟨?_, ?_, ?_, ?_, ?_, ?_⟩ <;>
    simp [readCamerasText_enc cs hc, readCamerasBinary_enc cs hcl hc,
      readImagesText_enc is hi, readImagesBinary_enc is hil hi,
      readPoints3dText_enc ps hp, readPoints3dBinary_enc ps hpl hp]

/-- Witness for claim C1 at a one-record reconstruction of each artifact. -/
theorem claim_C1_witness :
    (∀ r ∈ [camW], WFCamRec r) ∧
    (readCamerasText (camTextEnc [camW]) = readCamerasBinary (camBinEnc [camW]) ∧
     readImagesText (imgTextEnc [imgW]) = readImagesBinary (imgBinEnc [imgW]) ∧
     readPoints3dText (ptTextEnc [ptW]) = readPoints3dBinary (ptBinEnc [ptW]) ∧
     readCamerasText (camTextEnc [camW]) = .ok (camMapOf [camW]) ∧
     readImagesText (imgTextEnc [imgW]) = .ok (imgMapOf [imgW]) ∧
     readPoints3dText (ptTextEnc [ptW]) = .ok (ptMapOf [ptW])) :=
  ⟨by decide, claim_C1 [camW] [imgW] [ptW] (by decide) (by decide)
    (by decide) (by decide) (by decide) (by decide)⟩

/-- Claim C2: the camera model schema table.  For every camera,
`num_params` of its model equals the section 4.1 count, `focal` reads
`params[0]` and `params` at the claimed focal-y index, `principal_point`
reads `params` at the claimed index pair, and all claimed indices lie
below `num_params`. -/
theorem claim_C2 (c : Camera) :
    c.model.numParams = specNumParams c.model ∧
    specFocalY c.model < c.model.numParams ∧
    (specPP c.model).1 < c.model.numParams ∧
    (specPP c.model).2 < c.model.numParams ∧
    c.focal = (c.params.getD 0 .nan,
      c.params.getD (specFocalY c.model) .nan) ∧
    c.principal_point = ⟨narrow (c.params.getD (specPP c.model).1 .nan),
      narrow (c.params.getD (specPP c.model).2 .nan)⟩ := by
  obtain ⟨cid, m, w, h, psv⟩ := c
  cases m <;> refine ⟨rfl, ?_, ?_, ?_, rfl, rfl⟩ <;>
    norm_num [specFocalY, specPP, CameraModel.numParams]

/-- Claim C3: the specification says a short line A, or a line B whose
token count is not a multiple of 3, yields a `MalformedRecord` error.  The
code instead indexes the token vector without a length check, so both
inputs panic: the claim is refuted.  First input: one image line A with
three tokens.  Second input: a valid line A followed by a line B with one
token. -/
theorem claim_C3 :
    readImagesText (chars "1 2 3\n") = .error .panicked ∧
    readImagesText (chars "1 2 3\n") ≠ .error .malformedRecord ∧
    readImagesText (chars "1 1.0 0.0 0.0 0.0 0.0 0.0 0.0 1 a\n1.0\n") =
      .error .panicked ∧
    readImagesText (chars "1 1.0 0.0 0.0 0.0 0.0 0.0 0.0 1 a\n1.0\n") ≠
      .error .malformedRecord := by
  refine ⟨by decide, by decide, by decide, by decide⟩

/-- Claim C4: the specification says a binary stream ending mid-record
fails with `UnexpectedEof`.  For a stream that ends exactly where an image
name would begin, `read_until(0)` returns an empty buffer and the
`&name_bytes[..name_bytes.len() - 1]` index expression panics instead:
the claim is refuted on that input (count 1; id; seven doubles; camera
id; nothing further). -/
theorem claim_C4 :
    readImagesBinary (toLe 8 1 ++ (toLe 4 1 ++ (toLe 8 0 ++ (toLe 8 0 ++
      (toLe 8 0 ++ (toLe 8 0 ++ (toLe 8 0 ++ (toLe 8 0 ++ (toLe 8 0 ++
      toLe 4 1))))))))) = .error .panicked ∧
    readImagesBinary (toLe 8 1 ++ (toLe 4 1 ++ (toLe 8 0 ++ (toLe 8 0 ++
      (toLe 8 0 ++ (toLe 8 0 ++ (toLe 8 0 ++ (toLe 8 0 ++ (toLe 8 0 ++
      toLe 4 1))))))))) ≠ .error .unexpectedEof := by
  refine ⟨by decide, by decide⟩

/-- Claim C5: the specification says a blank line in place of an image
line A is skipped.  The `read_line` buffer of a blank line is the one
character string of a newline, which is not empty, so the line is parsed
as a record and the unchecked token indexing panics: the claim is refuted
on the one-blank-line input, which returns neither the empty mapping nor
any mapping at all. -/
theorem claim_C5 :
    readImagesText (chars "\n") = .error .panicked ∧
    readImagesText (chars "\n") ≠ .ok [] := by
  refine ⟨by decide, by decide⟩

/-- Counterexample to claim C6 as stated: a camera line whose second
token is not a recognised model name is claimed to fail with
`UnknownCameraModel`, but the id of the first token is parsed first, so a
line with an unparsable id and an unknown name fails with `ParseError`
instead. -/
theorem claim_C6_counterexample :
    readCamerasText (chars "x FOO 1 1\n") = .error .parseError ∧
    readCamerasText (chars "x FOO 1 1\n") ≠ .error .unknownCameraModel := by
  refine ⟨by decide, by decide⟩

/-- Claim C6 (amended): per parsed camera line, fewer than 4 tokens fail
with `MalformedRecord`; with at least 4 tokens, once the first token has
parsed as an id, an unrecognised second token fails with
`UnknownCameraModel`; once id, width, height and the parameter tail have
all parsed, a tail length differing from the model's declared count fails
with `ParamCountMismatch`, and otherwise the line yields the camera keyed
by its id.  (Amendment: each error fires only after every textually
earlier parse has succeeded, the id parse in particular preceding the
model name check.) -/
theorem claim_C6 (ts : List (List Char)) :
    (ts.length < 4 → camRecParse ts = .error .malformedRecord) ∧
    (∀ t0 t1 t2 t3 rest, ts = t0 :: t1 :: t2 :: t3 :: rest →
      (∀ id, pI32 t0 = .ok id → CameraModel.fromName t1 = none →
        camRecParse ts = .error .unknownCameraModel) ∧
      (∀ id m w h ps, pI32 t0 = .ok id → CameraModel.fromName t1 = some m →
        pU64 t2 = .ok w → pU64 t3 = .ok h → parseParams rest = .ok ps →
        (ps.length ≠ m.numParams →
          camRecParse ts = .error .paramCountMismatch) ∧
        (ps.length = m.numParams →
          camRecParse ts = .ok (id, ⟨id, m, w, h, ps⟩)))) := by
  constructor
  · intro hlen
    rcases ts with _ | ⟨a, _ | ⟨b, _ | ⟨c, _ | ⟨d, rest⟩⟩⟩⟩
    · rfl
    · rfl
    · rfl
    · rfl
    · simp only [List.length_cons] at hlen
      omega
  · intro t0 t1 t2 t3 rest hts
    subst hts
    constructor
    · intro id hid hname
      simp [camRecParse, hid, hname]
    · intro id m w h ps hid hname hw hh hp
      constructor
      · intro hne
        simp only [camRecParse, hid, hname, hw, hh, hp, exceptBindOk,
          exceptPureEq]
        rw [if_pos hne]
      · intro heq
        simp only [camRecParse, hid, hname, hw, hh, hp, exceptBindOk,
          exceptPureEq]
        rw [if_neg (fun h2 => h2 heq)]

/-- Witness for claim C6: one concrete line per outcome (too few tokens;
unknown model after a parsed id; parameter count mismatch; success). -/
theorem claim_C6_witness :
    camRecParse [chars "1"] = .error .malformedRecord ∧
    camRecParse [chars "1", chars "FOO", chars "2", chars "3"] =
      .error .unknownCameraModel ∧
    camRecParse [chars "7", chars "PINHOLE", chars "2", chars "3",
      f64Tok b500] = .error .paramCountMismatch ∧
    camRecParse [chars "7", chars "SIMPLE_PINHOLE", chars "2", chars "3",
      f64Tok b500, f64Tok b400, f64Tok b300] =
      .ok (7, ⟨7, .SimplePinhole, 2, 3,
        [f64ValOfBits b500, f64ValOfBits b400, f64ValOfBits b300]⟩) :=
  ⟨(claim_C6 [chars "1"]).1 (by decide),
   ((claim_C6 [chars "1", chars "FOO", chars "2", chars "3"]).2
     (chars "1") (chars "FOO") (chars "2") (chars "3") [] rfl).1
     1 (by decide) (by decide),
   (((claim_C6 [chars "7", chars "PINHOLE", chars "2", chars "3",
       f64Tok b500]).2
     (chars "7") (chars "PINHOLE") (chars "2") (chars "3") [f64Tok b500]
       rfl).2
     7 .Pinhole 2 3 [f64ValOfBits b500] (by decide) (by decide) (by decide)
     (by decide) (parseParams_enc [b500] (by decide))).1 (by decide),
   (((claim_C6 [chars "7", chars "SIMPLE_PINHOLE", chars "2", chars "3",
       f64Tok b500, f64Tok b400, f64Tok b300]).2
     (chars "7") (chars "SIMPLE_PINHOLE") (chars "2") (chars "3")
     [f64Tok b500, f64Tok b400, f64Tok b300] rfl).2
     7 .SimplePinhole 2 3 [f64ValOfBits b500, f64ValOfBits b400,
       f64ValOfBits b300] (by decide) (by decide) (by decide) (by decide)
     (parseParams_enc [b500, b400, b300] (by decide))).2 (by decide)⟩

/-- Claim C7: quaternion component order.  Both readers store, for a
record whose encodings carry the rotation in file order (w,x,y,z) — the
first rotation token or double being `qw`, as the `imgTokensA` and
`imgBinRec` encoders show — an in-memory rotation whose `x`, `y`, `z`,
`w` components are the narrowed second, third, fourth and first file
values respectively. -/
theorem claim_C7 (r : ImageRec) (hr : WFImgRec r) :
    ∃ img : Image,
      readImagesText (imgTextEnc [r]) = .ok [(r.id, img)] ∧
      readImagesBinary (imgBinEnc [r]) = .ok [(r.id, img)] ∧
      img.quat = ⟨n32 r.qx, n32 r.qy, n32 r.qz, n32 r.qw⟩ := by
  have hwf : ∀ x ∈ [r], WFImgRec x := by
    intro x hx
    rw [List.mem_singleton] at hx
    rwa [hx]
  refine ⟨imgEnt r, ?_, ?_, rfl⟩
  · rw [readImagesText_enc [r] hwf]
    simp [imgMapOf, upsert]
  · rw [readImagesBinary_enc [r] (by norm_num) hwf]
    simp [imgMapOf, upsert]

/-- Witness for claim C7 at a concrete image record. -/
theorem claim_C7_witness :
    WFImgRec imgW ∧ (∃ img : Image,
      readImagesText (imgTextEnc [imgW]) = .ok [(imgW.id, img)] ∧
      readImagesBinary (imgBinEnc [imgW]) = .ok [(imgW.id, img)] ∧
      img.quat = ⟨n32 imgW.qx, n32 imgW.qy, n32 imgW.qz, n32 imgW.qw⟩) :=
  ⟨by decide, claim_C7 imgW (by decide)⟩

/-- Claim C8: the concrete camera round trip.  The binary record
(count 1, id 1, model id 1, width 800, height 600, params 500.0, 500.0,
400.0, 300.0) and the text line both parse to the same Pinhole camera
with `focal` exactly (500, 500) and `principal_point` exactly
(400, 300). -/
theorem claim_C8 :
    ∃ cam : Camera,
      readCamerasBinary (toLe 8 1 ++ (toLe 4 1 ++ (toLe 4 1 ++
        (toLe 8 800 ++ (toLe 8 600 ++ (toLe 8 b500 ++ (toLe 8 b500 ++
        (toLe 8 b400 ++ toLe 8 b300)))))))) = .ok [(1, cam)] ∧
      readCamerasText (chars "1 PINHOLE 800 600 500.0 500.0 400.0 300.0\n") =
        .ok [(1, cam)] ∧
      cam.model = .Pinhole ∧ cam.width = 800 ∧ cam.height = 600 ∧
      cam.focal = (.finite ⟨500, 0⟩, .finite ⟨500, 0⟩) ∧
      cam.principal_point = ⟨.finite ⟨400, 0⟩, .finite ⟨300, 0⟩⟩ := by
  refine ⟨⟨1, .Pinhole, 800, 600, [f64ValOfBits b500, f64ValOfBits b500,
    f64ValOfBits b400, f64ValOfBits b300]⟩,
    by decide, by decide, rfl, rfl, rfl, by decide, by decide⟩

/-- Claim C9: a binary image stream in which a record's name bytes (the
bytes before the null terminator) are not valid UTF-8 makes the whole
read fail with `InvalidEncoding`: no mapping is returned, neither for the
bad record nor for the well-formed records decoded before it, whatever
bytes follow. -/
theorem claim_C9 (rs : List ImageRec) (hlen : rs.length + 1 < 2 ^ 64)
    (hwf : ∀ r ∈ rs, WFImgRec r) (r : ImageRec) (hr : WFImgRec r)
    (nb : List ℕ) (h0 : 0 ∉ nb) (hbad : validUtf8 nb = false)
    (tail : List ℕ) :
    readImagesBinary (toLe 8 (rs.length + 1) ++
      ((rs.map imgBinRec).flatten ++
        (toLe 4 (u32ofI32 r.id) ++ (toLe 8 r.qw ++ (toLe 8 r.qx ++
         (toLe 8 r.qy ++ (toLe 8 r.qz ++ (toLe 8 r.tx ++ (toLe 8 r.ty ++
         (toLe 8 r.tz ++ (toLe 4 (u32ofI32 r.camId) ++
          (nb ++ (0 :: tail))))))))))))) = .error .invalidEncoding := by
  obtain ⟨h1, hqw, hqx, hqy, hqz, htx, hty, htz, hcam, hname, hol, hobs⟩ := hr
  have hrec : imgRecB (toLe 4 (u32ofI32 r.id) ++ (toLe 8 r.qw ++
      (toLe 8 r.qx ++ (toLe 8 r.qy ++ (toLe 8 r.qz ++ (toLe 8 r.tx ++
      (toLe 8 r.ty ++ (toLe 8 r.tz ++ (toLe 4 (u32ofI32 r.camId) ++
      (nb ++ (0 :: tail))))))))))) = .error .invalidEncoding := by
    unfold imgRecB
    rw [rdI32_enc r.id h1]
    simp only [exceptBindOk]
    rw [rdF64_enc r.qw hqw.1]
    simp only [exceptBindOk]
    rw [rdF64_enc r.qx hqx.1]
    simp only [exceptBindOk]
    rw [rdF64_enc r.qy hqy.1]
    simp only [exceptBindOk]
    rw [rdF64_enc r.qz hqz.1]
    simp only [exceptBindOk]
    rw [rdF64_enc r.tx htx.1]
    simp only [exceptBindOk]
    rw [rdF64_enc r.ty hty.1]
    simp only [exceptBindOk]
    rw [rdF64_enc r.tz htz.1]
    simp only [exceptBindOk]
    rw [rdI32_enc r.camId hcam]
    simp only [exceptBindOk]
    rw [readUntil0_enc nb h0]
    have hne : (nb ++ [0]).isEmpty = false := by
      cases h : nb ++ [0] with
      | nil =>
        rcases List.append_eq_nil.mp h with ⟨_, h2⟩
        cases h2
      | cons a l => rfl
    have hdrop : (nb ++ [0]).dropLast = nb := by simp
    simp only [hne, Bool.false_eq_true, if_false, hdrop, hbad]
  unfold readImagesBinary
  rw [rdU64_toLe _ hlen]
  simp only [exceptBindOk]
  rw [imgLoopB_enc rs 1 [] _ hwf, show (1 : ℕ) = 0 + 1 from rfl,
    imgLoopB_succ, hrec]

/-- Witness for claim C9: the one-record stream whose name is the single
byte 255, which no UTF-8 sequence allows. -/
theorem claim_C9_witness :
    validUtf8 [255] = false ∧
    readImagesBinary (toLe 8 (([] : List ImageRec).length + 1) ++
      ((([] : List ImageRec).map imgBinRec).flatten ++
        (toLe 4 (u32ofI32 imgW.id) ++ (toLe 8 imgW.qw ++ (toLe 8 imgW.qx ++
         (toLe 8 imgW.qy ++ (toLe 8 imgW.qz ++ (toLe 8 imgW.tx ++
         (toLe 8 imgW.ty ++ (toLe 8 imgW.tz ++
          (toLe 4 (u32ofI32 imgW.camId) ++
           ([255] ++ (0 :: []))))))))))))) = .error .invalidEncoding :=
  ⟨by decide, claim_C9 [] (by decide) (by decide) imgW (by decide) [255]
    (by decide) (by decide) []⟩

/-- Claim C10: duplicate-id semantics.  For each of the three artifacts,
in both modes, an input carrying two records with the same id parses
without error to a mapping with exactly one entry for that id, holding
the later record's fields; the earlier record leaves no trace. -/
theorem claim_C10 (a b : CameraRec) (hab : a.id = b.id)
    (ha : WFCamRec a) (hb : WFCamRec b)
    (ia ib : ImageRec) (hiab : ia.id = ib.id)
    (hia : WFImgRec ia) (hib : WFImgRec ib)
    (pa pb : PointRec) (hpab : pa.id = pb.id)
    (hpa : WFPtRec pa) (hpb : WFPtRec pb) :
    readCamerasText (camTextEnc [a, b]) = .ok [(b.id, camEnt b)] ∧
    readCamerasBinary (camBinEnc [a, b]) = .ok [(b.id, camEnt b)] ∧
    readImagesText (imgTextEnc [ia, ib]) = .ok [(ib.id, imgEnt ib)] ∧
    readImagesBinary (imgBinEnc [ia, ib]) = .ok [(ib.id, imgEnt ib)] ∧
    readPoints3dText (ptTextEnc [pa, pb]) = .ok [(pb.id, ptEnt pb)] ∧
    readPoints3dBinary (ptBinEnc [pa, pb]) = .ok [(pb.id, ptEnt pb)] := by
  have hca : ∀ x ∈ [a, b], WFCamRec x := by
    intro x hx
    rcases List.mem_cons.mp hx with rfl | hx2
    · exact ha
    · rw [List.mem_singleton] at hx2
      rwa [hx2]
  have hia2 : ∀ x ∈ [ia, ib], WFImgRec x := by
    intro x hx
    rcases List.mem_cons.mp hx with rfl | hx2
    · exact hia
    · rw [List.mem_singleton] at hx2
      rwa [hx2]
  have hpa2 : ∀ x ∈ [pa, pb], WFPtRec x := by
    intro x hx
    rcases List.mem_cons.mp hx with rfl | hx2
    · exact hpa
    · rw [List.mem_singleton] at hx2
      rwa [hx2]
  refine ⟨?_, ?_, ?_, ?_, ?_, ?_⟩
  · rw [readCamerasText_enc [a, b] hca]
    simp [camMapOf, upsert, hab]
  · rw [readCamerasBinary_enc [a, b] (by norm_num) hca]
    simp [camMapOf, upsert, hab]
  · rw [readImagesText_enc [ia, ib] hia2]
    simp [imgMapOf, upsert, hiab]
  · rw [readImagesBinary_enc [ia, ib] (by norm_num) hia2]
    simp [imgMapOf, upsert, hiab]
  · rw [readPoints3dText_enc [pa, pb] hpa2]
    simp [ptMapOf, upsert, hpab]
  · rw [readPoints3dBinary_enc [pa, pb] (by norm_num) hpa2]
    simp [ptMapOf, upsert, hpab]

/-- Witness for claim C10 at concrete duplicate-id records of all three
artifacts. -/
theorem claim_C10_witness :
    camW.id = camW2.id ∧
    (readCamerasText (camTextEnc [camW, camW2]) =
      .ok [(camW2.id, camEnt camW2)] ∧
     readCamerasBinary (camBinEnc [camW, camW2]) =
      .ok [(camW2.id, camEnt camW2)] ∧
     readImagesText (imgTextEnc [imgW, imgW2]) =
      .ok [(imgW2.id, imgEnt imgW2)] ∧
     readImagesBinary (imgBinEnc [imgW, imgW2]) =
      .ok [(imgW2.id, imgEnt imgW2)] ∧
     readPoints3dText (ptTextEnc [ptW, ptW2]) =
      .ok [(ptW2.id, ptEnt ptW2)] ∧
     readPoints3dBinary (ptBinEnc [ptW, ptW2]) =
      .ok [(ptW2.id, ptEnt ptW2)]) :=
  ⟨by decide, claim_C10 camW camW2 (by decide) (by decide) (by decide)
    imgW imgW2 (by decide) (by decide) (by decide)
    ptW ptW2 (by decide) (by decide) (by decide)⟩
